import Mathlib

/-!
Verification development for the Blink-DB LSM-tree storage engine
(src/src/engine: skiplist.hpp, key_value.hpp, memtable.hpp, sstable.hpp,
lsm.hpp, constants.hpp).

Modelling conventions.
Byte strings (std::string used as an opaque byte sequence, compared
lexicographically by unsigned char) are modelled as `List Nat` with the
lexicographic linear order; each element stands for one byte.
File contents are byte lists; the file system is an association list from
file names to contents.  Machine integers written to disk (uint32_t,
uint64_t) are encoded as little-endian byte lists with explicit `% 256`
arithmetic.  A short `istream::read` leaves the unread suffix of the
destination buffer zero-filled; `takePad` reproduces that.
The two tunable constants MAX_MEMTABLE_SIZE and MAX_SSTABLE_COUNT from
constants.hpp are gathered in a `Config` record so theorems can quantify
over them; `defaultConfig` instantiates the source's values.
`std::string::capacity()` (used by KeyValuePair::size) is modelled by the
string's length, its lower bound.
The skip list's random promotions (`dis(gen) < P`) are modelled by an
explicit list of coin flips passed to `put`.
-/

/-- Byte strings: keys, values and file contents are opaque byte sequences
compared lexicographically (std::string with unsigned char bytes). -/
abbrev Bytes := List Nat

/-- TOMBSTONE from constants.hpp: the 4-byte sentinel 0xFF 0xFF 0xFF 0xFF. -/
def TOMBSTONE : Bytes := [255, 255, 255, 255]

/-- INDEX_EXTENSION from constants.hpp: the bytes of the text .index . -/
def INDEX_EXTENSION : Bytes := [46, 105, 110, 100, 101, 120]

/-- DATA_EXTENSION from constants.hpp: the bytes of the text .data . -/
def DATA_EXTENSION : Bytes := [46, 100, 97, 116, 97]

/-- DATA_DIR from constants.hpp: the bytes of the text data/ . -/
def DATA_DIR : Bytes := [100, 97, 116, 97, 47]

/-- Filename stem prefix used by flush_memtable and perform_compaction:
the bytes of the text sstable_ . -/
def SSTABLE_PREFIX : Bytes := [115, 115, 116, 97, 98, 108, 101, 95]

/-- MAX_MEMTABLE_SIZE from constants.hpp (32 MiB). -/
def MAX_MEMTABLE_SIZE : Nat := 32 * 1024 * 1024

/-- MAX_SSTABLE_COUNT from constants.hpp. -/
def MAX_SSTABLE_COUNT : Nat := 100

/-- sizeof(std::string) on the source's platform (64-bit libstdc++). -/
def SIZEOF_STD_STRING : Nat := 32

/-- KeyValuePair::size from key_value.hpp:
sizeof(std::string) * 2 + key.capacity() + value.capacity().
Capacity is modelled by length (its lower bound). -/
def kvSize (key value : Bytes) : Nat :=
  SIZEOF_STD_STRING * 2 + key.length + value.length

/-- MAX_LEVEL from skiplist.hpp. -/
def MAX_LEVEL : Nat := 16

/-- The skip list of skiplist.hpp.  `base` is the base level: the normal
nodes between the infinity sentinels, in list order, with their stored
key-value pairs.  `upper` are the levels above the base, bottom first;
each holds the keys of its normal nodes in list order (upper-level nodes
store an empty value, skiplist.hpp line 156).  Vertical pointers are
represented by key identity: a node's `down` pointer reaches the node
with the same key one level below (skiplist.hpp keeps every promoted key
mirrored on the level below).  `sentVal` is the value field of the
base-level NEGATIVE_INFINITY sentinel's default KeyValuePair, whose key
is the empty string; SkipList::put writes to it when the searched node is
that sentinel and the key compares equal to its empty key. -/
structure SkipList where
  upper : List (List Bytes)
  base : List (Bytes × Bytes)
  sentVal : Bytes
  totalSize : Nat
deriving DecidableEq

/-- A freshly constructed SkipList: one empty level, size 0. -/
def SkipList.empty : SkipList := ⟨[], [], [], 0⟩

/-- One horizontal step loop of SkipList::search on a single level:
advance right while the next node is not POSITIVE_INFINITY and its key
is ≤ the target (skiplist.hpp lines 86-89).  `pos` is the key of the
current node (`none` is the NEGATIVE_INFINITY sentinel). -/
def advanceRight (target : Bytes) : List Bytes → Option Bytes → Option Bytes
  | [], pos => pos
  | k :: rest, pos => if k ≤ target then advanceRight target rest (some k) else pos

/-- The nodes strictly to the right of the current node on a level.
Following the `down` pointer lands on the same key one level below, so
the level's list is resumed just past that key. -/
def suffixAfter (pos : Option Bytes) (ks : List Bytes) : List Bytes :=
  match pos with
  | none => ks
  | some p => (ks.dropWhile (fun k => k ≠ p)).drop 1

/-- Traverse one level of SkipList::search: advance right from the
current node, returning the key of the node where the level's scan
stops. -/
def searchLevel (pos : Option Bytes) (lvl : List Bytes) (target : Bytes) : Option Bytes :=
  advanceRight target (suffixAfter pos lvl) pos

/-- SkipList::search (skiplist.hpp lines 83-97): start at the top-left
sentinel, scan right on each level, drop down, and return the base-level
node where the traversal stops (`none` is the base NEGATIVE_INFINITY
sentinel).  `upper` is stored bottom-first, so a right fold visits the
topmost level first. -/
def SkipList.search (s : SkipList) (key : Bytes) : Option Bytes :=
  searchLevel (s.upper.foldr (fun lvl pos => searchLevel pos lvl key) none)
    (s.base.map Prod.fst) key

/-- Key of the node returned by search: the NEGATIVE_INFINITY sentinel
carries a default KeyValuePair whose key is the empty string. -/
def nodeKey : Option Bytes → Bytes
  | none => []
  | some k => k

/-- Value stored at a base-level node with the given key. -/
def baseLookup (base : List (Bytes × Bytes)) (k : Bytes) : Bytes :=
  match base.find? (fun kv => kv.1 = k) with
  | some kv => kv.2
  | none => []

/-- Value of the node returned by search; for the sentinel this is its
(mutable) default KeyValuePair value. -/
def SkipList.nodeValue (s : SkipList) : Option Bytes → Bytes
  | none => s.sentVal
  | some k => baseLookup s.base k

/-- SkipList::get (skiplist.hpp lines 106-112): search, then compare the
found node's key with the target; on equality return {true, value},
otherwise {false, empty}. -/
def SkipList.get (s : SkipList) (key : Bytes) : Bool × Bytes :=
  let pos := s.search key
  if nodeKey pos = key then (true, s.nodeValue pos) else (false, [])

/-- In-place value overwrite of the base node holding `key`
(current->data.setValue(value), skiplist.hpp line 126). -/
def setVal (base : List (Bytes × Bytes)) (key value : Bytes) : List (Bytes × Bytes) :=
  match base with
  | [] => []
  | kv :: rest => if kv.1 = key then (kv.1, value) :: rest else kv :: setVal rest key value

/-- Splice a new node directly after the node holding key `p`
(skiplist.hpp lines 132-135). -/
def spliceAfter (p : Bytes) (kv : Bytes × Bytes) : List (Bytes × Bytes) → List (Bytes × Bytes)
  | [] => [kv]
  | x :: rest => if x.1 = p then x :: kv :: rest else x :: spliceAfter p kv rest

/-- Insert a promoted key into an upper level, after its nearest
predecessor reached through the up-pointer chain (skiplist.hpp lines
152-160); with the level sorted this is the position after the greatest
strictly smaller key. -/
def insertKey (key : Bytes) : List Bytes → List Bytes
  | [] => [key]
  | k :: rest => if k < key then k :: insertKey key rest else key :: k :: rest

/-- Apply `c` promotions of `key` to the upper levels (bottom first),
allocating a fresh level with new infinity sentinels whenever the
promotion exceeds the current top (skiplist.hpp lines 138-151). -/
def insertUpperLevels (key : Bytes) : Nat → List (List Bytes) → List (List Bytes)
  | 0, u => u
  | c + 1, [] => [key] :: insertUpperLevels key c []
  | c + 1, lvl :: rest => insertKey key lvl :: insertUpperLevels key c rest

/-- Number of successful coin flips before the first failure. -/
def countLeadingTrue : List Bool → Nat
  | [] => 0
  | false :: _ => 0
  | true :: rest => countLeadingTrue rest + 1

/-- SkipList::put (skiplist.hpp lines 123-166).  Search for the key; if
the found node's key compares equal (this includes the sentinel when the
key is the empty string) overwrite the node's value in place and return;
otherwise accrue the pair's size, splice a new base node after the found
node, and promote it while coin flips succeed, capped at MAX_LEVEL. -/
def SkipList.put (s : SkipList) (key value : Bytes) (flips : List Bool) : SkipList :=
  let pos := s.search key
  if nodeKey pos = key then
    match pos with
    | none => { s with sentVal := value }
    | some _ => { s with base := setVal s.base key value }
  else
    let c := min (countLeadingTrue flips) MAX_LEVEL
    let newBase :=
      match pos with
      | none => (key, value) :: s.base
      | some p => spliceAfter p (key, value) s.base
    { upper := insertUpperLevels key c s.upper
      base := newBase
      sentVal := s.sentVal
      totalSize := s.totalSize + kvSize key value }

/-- SkipList::getSize. -/
def SkipList.getSize (s : SkipList) : Nat := s.totalSize

/-- MemTable from memtable.hpp: owns exactly one skip list. -/
structure MemTable where
  list : SkipList
deriving DecidableEq

/-- A freshly constructed MemTable. -/
def MemTable.empty : MemTable := ⟨SkipList.empty⟩

/-- MemTable::put. -/
def MemTable.put (m : MemTable) (key value : Bytes) (flips : List Bool) : MemTable :=
  ⟨m.list.put key value flips⟩

/-- MemTable::get (memtable.hpp lines 51-60): not found gives
{false, empty}; found with the tombstone value gives {false, tombstone};
found otherwise gives {true, value}. -/
def MemTable.get (m : MemTable) (key : Bytes) : Bool × Bytes :=
  let result := m.list.get key
  if !result.1 then (false, [])
  else if result.2 = TOMBSTONE then (false, result.2)
  else (true, result.2)

/-- MemTable::remove (memtable.hpp lines 67-70): store the tombstone
sentinel as the value. -/
def MemTable.remove (m : MemTable) (key : Bytes) (flips : List Bool) : MemTable :=
  m.put key TOMBSTONE flips

/-- MemTable::getSize. -/
def MemTable.getSize (m : MemTable) : Nat := m.list.getSize

/-- In-order iteration of the memtable (begin..end walks the base level's
normal nodes; the sentinels, including the one holding `sentVal`, are
skipped). -/
def MemTable.entries (m : MemTable) : List (Bytes × Bytes) := m.list.base

/-- Little-endian encoding of a uint32_t as written by ofstream::write. -/
def u32le (n : Nat) : Bytes :=
  [n % 256, n / 256 % 256, n / 2 ^ 16 % 256, n / 2 ^ 24 % 256]

/-- Little-endian encoding of a uint64_t as written by ofstream::write. -/
def u64le (n : Nat) : Bytes :=
  [n % 256, n / 256 % 256, n / 2 ^ 16 % 256, n / 2 ^ 24 % 256,
   n / 2 ^ 32 % 256, n / 2 ^ 40 % 256, n / 2 ^ 48 % 256, n / 2 ^ 56 % 256]

/-- Value of a little-endian byte list. -/
def leVal : Bytes → Nat
  | [] => 0
  | b :: rest => b + 256 * leVal rest

/-- Model of istream::read of n bytes: a short read leaves the unread
suffix of the zero-initialised destination buffer zero-filled. -/
def takePad (n : Nat) (bs : Bytes) : Bytes :=
  bs.take n ++ List.replicate (n - bs.length) 0

/-- One data-file record: u32 key size, key, u32 value size, value
(sstable.hpp lines 85-90 and 118-121). -/
def encodeRecord (kv : Bytes × Bytes) : Bytes :=
  u32le kv.1.length ++ kv.1 ++ u32le kv.2.length ++ kv.2

/-- A data file: the concatenation of its records. -/
def encodeData (entries : List (Bytes × Bytes)) : Bytes :=
  (entries.map encodeRecord).flatten

/-- On-disk size of one record (sstable.hpp line 123). -/
def recordSize (kv : Bytes × Bytes) : Nat := 8 + kv.1.length + kv.2.length

/-- Byte offset of record i in a data file. -/
def offsetOf (entries : List (Bytes × Bytes)) (i : Nat) : Nat :=
  ((entries.take i).map recordSize).sum

/-- KEYS_PER_INDEX_ENTRY from sstable.hpp. -/
def KEYS_PER_INDEX_ENTRY : Nat := 10

/-- The sparse-index entries emitted by SS_Table::createFromMemTable's
loop (sstable.hpp lines 107-124): one (key, offset) pair for every
record whose index i satisfies i % KEYS_PER_INDEX_ENTRY == 0, where
offset is the running byte position of that record in the data file. -/
def sparseIndexAux : List (Bytes × Bytes) → Nat → Nat → List (Bytes × Nat)
  | [], _, _ => []
  | kv :: rest, i, off =>
    let tail := sparseIndexAux rest (i + 1) (off + recordSize kv)
    if i % KEYS_PER_INDEX_ENTRY = 0 then (kv.1, off) :: tail else tail

/-- All sparse-index entries of a record list. -/
def sparseIndexEntries (entries : List (Bytes × Bytes)) : List (Bytes × Nat) :=
  sparseIndexAux entries 0 0

/-- One index-file entry: u32 key size, key, u64 offset. -/
def encodeIndexEntry (e : Bytes × Nat) : Bytes :=
  u32le e.1.length ++ e.1 ++ u64le e.2

/-- An index file: u64 entry count ceil(R/10), then the entries
(sstable.hpp lines 102-116). -/
def encodeIndex (entries : List (Bytes × Bytes)) : Bytes :=
  u64le ((entries.length + KEYS_PER_INDEX_ENTRY - 1) / KEYS_PER_INDEX_ENTRY) ++
    ((sparseIndexEntries entries).map encodeIndexEntry).flatten

/-- The file system: an association list from file name to contents. -/
abbrev FS := List (Bytes × Bytes)

/-- Open a file for reading. -/
def fsRead (fs : FS) (name : Bytes) : Option Bytes :=
  (fs.find? (fun f => f.1 = name)).map Prod.snd

/-- Create or truncate a file with the given contents. -/
def fsWrite (fs : FS) (name contents : Bytes) : FS :=
  (name, contents) :: fs.filter (fun f => ¬ f.1 = name)

/-- std::filesystem::remove. -/
def fsRemove (fs : FS) (name : Bytes) : FS :=
  fs.filter (fun f => ¬ f.1 = name)

/-- The in-memory SS_Table handle (sstable.hpp lines 24-31): the two file
names, the loaded sparse index, and the indexLoaded flag. -/
structure SS_Table where
  index_filename : Bytes
  data_filename : Bytes
  index : List (Bytes × Nat)
  indexLoaded : Bool
deriving DecidableEq

/-- SS_Table::getIndexFile. -/
def SS_Table.getIndexFile (t : SS_Table) : Bytes := t.index_filename

/-- SS_Table::getDataFilename. -/
def SS_Table.getDataFilename (t : SS_Table) : Bytes := t.data_filename

/-- The entry-reading loop of SS_Table::loadIndex (sstable.hpp lines
147-155): read u32 key size, the key, and a u64 offset, n times. -/
def parseIndexEntries : Nat → Bytes → List (Bytes × Nat)
  | 0, _ => []
  | n + 1, bs =>
    let key_size := leVal (takePad 4 bs)
    let rest1 := bs.drop 4
    let key := takePad key_size rest1
    let rest2 := rest1.drop key_size
    let off := leVal (takePad 8 rest2)
    (key, off) :: parseIndexEntries n (rest2.drop 8)

/-- SS_Table::loadIndex's parse of an index file: u64 entry count, then
that many entries. -/
def parseIndex (bs : Bytes) : List (Bytes × Nat) :=
  parseIndexEntries (leVal (takePad 8 bs)) (bs.drop 8)

/-- Construct an SS_Table handle and run loadIndex (both sstable.hpp
constructors do this; loadIndex returns false exactly when the index
file cannot be opened, and no read inside it is error-checked). -/
def SS_Table.loadIndex (fs : FS) (index_filename data_filename : Bytes) : SS_Table :=
  match fsRead fs index_filename with
  | none => ⟨index_filename, data_filename, [], false⟩
  | some bs => ⟨index_filename, data_filename, parseIndex bs, true⟩

/-- SS_Table::createFromMemTable (sstable.hpp lines 84-129): iterate the
memtable in order, write an index entry for every 10th record and a data
record for every record.  File creation succeeds in this model (the
source returns false when a file cannot be opened). -/
def SS_Table.createFromMemTable (fs : FS) (filename : Bytes) (memTable : MemTable) :
    FS × Bool :=
  let entries := memTable.entries
  let fs1 := fsWrite fs (filename ++ INDEX_EXTENSION) (encodeIndex entries)
  let fs2 := fsWrite fs1 (filename ++ DATA_EXTENSION) (encodeData entries)
  (fs2, true)

/-- Key of index entry i (empty when out of range). -/
def idxKey (index : List (Bytes × Nat)) (i : Nat) : Bytes :=
  ((index.get? i).map Prod.fst).getD []

/-- Offset of index entry i (0 when out of range). -/
def idxOff (index : List (Bytes × Nat)) (i : Nat) : Nat :=
  ((index.get? i).map Prod.snd).getD 0

/-- The binary-search loop of SS_Table::findStartOffset (sstable.hpp
lines 47-55): locate the largest position whose key is ≤ the target.
The fuel argument bounds the iteration count; each iteration shrinks
right - left by at least one, so findStartOffset's fuel of the index
length always suffices. -/
def bsearchLoop (index : List (Bytes × Nat)) (key : Bytes) :
    Nat → Nat → Nat → Nat
  | 0, left, _ => left
  | fuel + 1, left, right =>
    if left < right then
      let mid := left + (right - left + 1) / 2
      if idxKey index mid ≤ key then bsearchLoop index key fuel mid right
      else bsearchLoop index key fuel left (mid - 1)
    else left

/-- SS_Table::findStartOffset (sstable.hpp lines 38-58). -/
def SS_Table.findStartOffset (t : SS_Table) (key : Bytes) : Option Nat :=
  if t.index = [] then none
  else if key < idxKey t.index 0 then some (idxOff t.index 0)
  else some (idxOff t.index (bsearchLoop t.index key t.index.length 0 (t.index.length - 1)))

/-- The record-scanning loop of SS_Table::getValue (sstable.hpp lines
180-205), instrumented with the number of records examined.  Stops with
absent at end of file or at the first stored key strictly greater than
the target; at the target key returns its value, as a tombstone answer
when the value equals the sentinel.  The fuel argument bounds the
iteration count; each record consumes at least eight bytes, so
getValue's fuel of the remaining byte count always suffices. -/
def scanRecords (key : Bytes) : Nat → Bytes → Nat → (Bool × Bytes) × Nat
  | 0, _, count => ((false, []), count)
  | fuel + 1, bytes, count =>
    if bytes.length < 4 then ((false, []), count)
    else
      let key_size := leVal (takePad 4 bytes)
      let stored_key := takePad key_size (bytes.drop 4)
      if key < stored_key then ((false, []), count + 1)
      else
        let rest2 := bytes.drop (4 + key_size)
        let value_size := leVal (takePad 4 rest2)
        let value := takePad value_size (rest2.drop 4)
        if stored_key = key then
          (if value = TOMBSTONE then ((false, value), count + 1)
           else ((true, value), count + 1))
        else scanRecords key fuel (rest2.drop (4 + value_size)) (count + 1)

/-- SS_Table::getValue (sstable.hpp lines 165-208): require a loaded
index, find the start offset, open the data file, seek, and scan. -/
def SS_Table.getValue (t : SS_Table) (fs : FS) (key : Bytes) : Bool × Bytes :=
  if !t.indexLoaded then (false, [])
  else
    match t.findStartOffset key with
    | none => (false, [])
    | some off =>
      match fsRead fs t.data_filename with
      | none => (false, [])
      | some bytes => (scanRecords key (bytes.drop off).length (bytes.drop off) 0).1

/-- Digit-accumulating loop of std::to_string on a positive number.
The first argument is fuel bounding the number of divisions; natDigits
passes the number itself, which always suffices. -/
def natDigitsAux : Nat → Nat → Bytes → Bytes
  | 0, _, acc => acc
  | _, 0, acc => acc
  | fuel + 1, n + 1, acc => natDigitsAux fuel ((n + 1) / 10) ((48 + (n + 1) % 10) :: acc)

/-- std::to_string of a timestamp: its decimal digits in ASCII. -/
def natDigits (n : Nat) : Bytes :=
  if n = 0 then [48] else natDigitsAux n n []

/-- The two tunable thresholds of constants.hpp, as a record so theorems
can quantify over their values. -/
structure Config where
  maxMemtableSize : Nat
  maxSSTableCount : Nat
deriving DecidableEq

/-- The source's constants: 32 MiB memtable threshold, 100 SSTables. -/
def defaultConfig : Config := ⟨MAX_MEMTABLE_SIZE, MAX_SSTABLE_COUNT⟩

/-- The LSMTree coordinator state (lsm.hpp lines 37-54): the active
memtable, the immutable memtables awaiting flush (front = oldest), the
SSTable handles (front = oldest), the file system, and a clock supplying
the strictly increasing millisecond timestamps used in file names. -/
structure LSMTree where
  activeMemTable : MemTable
  memTables : List MemTable
  sstables : List SS_Table
  fs : FS
  clock : Nat
deriving DecidableEq

/-- A fresh LSMTree over an empty data directory. -/
def LSMTree.initial : LSMTree := ⟨MemTable.empty, [], [], [], 0⟩

/-- LSMTree::rotate_memtable (lsm.hpp lines 61-66): seal the active
memtable into the back of the immutable queue and install a fresh one. -/
def LSMTree.rotate_memtable (s : LSMTree) : LSMTree :=
  { s with activeMemTable := MemTable.empty,
           memTables := s.memTables ++ [s.activeMemTable] }

/-- LSMTree::put (lsm.hpp lines 290-298): insert into the active
memtable; if its reported size reaches the threshold, rotate. -/
def LSMTree.put (cfg : Config) (s : LSMTree) (key value : Bytes) (flips : List Bool) :
    LSMTree :=
  let s1 := { s with activeMemTable := s.activeMemTable.put key value flips }
  if cfg.maxMemtableSize ≤ s1.activeMemTable.getSize then s1.rotate_memtable else s1

/-- LSMTree::remove (lsm.hpp lines 346-349): insert the tombstone into
the active memtable; no size check, no rotation. -/
def LSMTree.remove (s : LSMTree) (key : Bytes) (flips : List Bool) : LSMTree :=
  { s with activeMemTable := s.activeMemTable.put key TOMBSTONE flips }

/-- The immutable-memtable block of LSMTree::get (lsm.hpp lines 316-326):
walk the queue with reverse iterators (newest first), stopping at a found
value or a tombstone. -/
def getFromMemTables (key : Bytes) : List MemTable → Option (Bool × Bytes)
  | [] => none
  | m :: rest =>
    let result := m.get key
    if result.1 then some result
    else if result.2 = TOMBSTONE then some (false, result.2)
    else getFromMemTables key rest

/-- The SSTable block of LSMTree::get (lsm.hpp lines 328-338): walk the
SSTable list with reverse iterators (newest first), stopping at a found
value or a tombstone. -/
def getFromSSTables (fs : FS) (key : Bytes) : List SS_Table → Option (Bool × Bytes)
  | [] => none
  | t :: rest =>
    let result := t.getValue fs key
    if result.1 then some result
    else if result.2 = TOMBSTONE then some (false, result.2)
    else getFromSSTables fs key rest

/-- LSMTree::get (lsm.hpp lines 305-340): the active memtable, then the
immutable memtables newest first, then the SSTables newest first; a found
value or a tombstone answer returns immediately, otherwise the result is
{false, empty}. -/
def LSMTree.get (s : LSMTree) (key : Bytes) : Bool × Bytes :=
  let r0 := s.activeMemTable.get key
  if r0.1 then r0
  else if r0.2 = TOMBSTONE then (false, r0.2)
  else
    match getFromMemTables key s.memTables.reverse with
    | some r => r
    | none =>
      match getFromSSTables s.fs key s.sstables.reverse with
      | some r => r
      | none => (false, [])

/-- LSMTree::flush_memtable applied to the front of the queue by the
flush worker (lsm.hpp lines 72-114): write the oldest sealed memtable as
SSTable sstable_<timestamp>, and on success construct a handle (loading
its index) and append it to the back of the SSTable list. -/
def LSMTree.flush_memtable (s : LSMTree) : LSMTree :=
  match s.memTables with
  | [] => s
  | m :: rest =>
    let stem := DATA_DIR ++ SSTABLE_PREFIX ++ natDigits s.clock
    let w := SS_Table.createFromMemTable s.fs stem m
    if w.2 then
      { activeMemTable := s.activeMemTable
        memTables := rest
        sstables := s.sstables ++
          [SS_Table.loadIndex w.1 (stem ++ INDEX_EXTENSION) (stem ++ DATA_EXTENSION)]
        fs := w.1
        clock := s.clock + 1 }
    else { s with memTables := rest, clock := s.clock + 1 }

/-- Insert an SSTable handle into a list sorted ascending by index file
name (the comparator of lsm.hpp lines 163-166 and 245-247). -/
def insertByName (t : SS_Table) : List SS_Table → List SS_Table
  | [] => [t]
  | x :: rest =>
    if t.index_filename < x.index_filename then t :: x :: rest else x :: insertByName t rest

/-- std::sort by index file name ascending. -/
def sortByIndexName (l : List SS_Table) : List SS_Table :=
  l.foldr insertByName []

/-- The record-reading loop of LSMTree::perform_compaction (lsm.hpp lines
175-193): read records until fewer than four bytes remain for the next
key size (the eof branch); the inner reads are not error-checked, so a
truncated record comes back zero-padded.  The fuel argument bounds the
iteration count; each record consumes at least eight bytes, so
parseRecords' fuel of the byte count always suffices. -/
def parseRecordsAux : Nat → Bytes → List (Bytes × Bytes)
  | 0, _ => []
  | fuel + 1, bytes =>
    if bytes.length < 4 then []
    else
      let key_size := leVal (takePad 4 bytes)
      let key := takePad key_size (bytes.drop 4)
      let rest2 := bytes.drop (4 + key_size)
      let value_size := leVal (takePad 4 rest2)
      let value := takePad value_size (rest2.drop 4)
      (key, value) :: parseRecordsAux fuel (rest2.drop (4 + value_size))

/-- The full record-reading loop over a data file's bytes. -/
def parseRecords (bytes : Bytes) : List (Bytes × Bytes) :=
  parseRecordsAux bytes.length bytes

/-- Records of one SSTable's data file as perform_compaction reads them;
an unopenable data file is skipped (lsm.hpp lines 171-174). -/
def readDataRecords (fs : FS) (t : SS_Table) : List (Bytes × Bytes) :=
  match fsRead fs t.data_filename with
  | none => []
  | some bytes => parseRecords bytes

/-- std::map insertion guarded by a find (lsm.hpp lines 190-192): insert
(key, value) into the ordered map only if the key is not already
present.  The map is kept as a key-sorted association list. -/
def mapInsertIfAbsent (k v : Bytes) : List (Bytes × Bytes) → List (Bytes × Bytes)
  | [] => [(k, v)]
  | kv :: rest =>
    if kv.1 = k then kv :: rest
    else if kv.1 < k then kv :: mapInsertIfAbsent k v rest
    else (k, v) :: kv :: rest

/-- Merge one file's records into the ordered map, first write wins. -/
def mergeRecords (m : List (Bytes × Bytes)) (records : List (Bytes × Bytes)) :
    List (Bytes × Bytes) :=
  records.foldl (fun acc kv => mapInsertIfAbsent kv.1 kv.2 acc) m

/-- LSMTree::perform_compaction (lsm.hpp lines 142-224): take the oldest
maxSSTableCount handles, sort them by index file name ascending, read
every data file start to end into an ordered map with first write wins,
re-insert the non-tombstone entries into a fresh memtable (std::map
iteration is in ascending key order), write it as a new SSTable, delete
both files of every source SSTable, and append the new handle. -/
def LSMTree.perform_compaction (cfg : Config) (s : LSMTree) : LSMTree :=
  if s.sstables.length < cfg.maxSSTableCount then s
  else
    let tables_to_compact := sortByIndexName (s.sstables.take cfg.maxSSTableCount)
    let remaining := s.sstables.drop cfg.maxSSTableCount
    let merged_data :=
      tables_to_compact.foldl (fun m t => mergeRecords m (readDataRecords s.fs t)) []
    let merged_memtable :=
      (merged_data.filter (fun kv => ¬ kv.2 = TOMBSTONE)).foldl
        (fun m kv => m.put kv.1 kv.2 []) MemTable.empty
    let stem := DATA_DIR ++ SSTABLE_PREFIX ++ natDigits s.clock
    let w := SS_Table.createFromMemTable s.fs stem merged_memtable
    if w.2 then
      let fs3 := tables_to_compact.foldl
        (fun fs t => fsRemove (fsRemove fs t.index_filename) t.data_filename) w.1
      { activeMemTable := s.activeMemTable
        memTables := s.memTables
        sstables := remaining ++
          [SS_Table.loadIndex fs3 (stem ++ INDEX_EXTENSION) (stem ++ DATA_EXTENSION)]
        fs := fs3
        clock := s.clock + 1 }
    else { s with clock := s.clock + 1 }

/-- First position of `pat` inside `hay` (std::string::find). -/
def findSub (pat : Bytes) : Bytes → Option Nat
  | [] => if pat = [] then some 0 else none
  | b :: rest =>
    if pat.isPrefixOf (b :: rest) then some 0
    else (findSub pat rest).map (fun i => i + 1)

/-- LSMTree::load_existing_sstables (lsm.hpp lines 230-251): for every
directory entry whose name contains the index extension, construct a
handle over the name and the stem with the data extension, keep it iff
loadIndex succeeds, then sort by index file name. -/
def LSMTree.load_existing_sstables (listing : List Bytes) (fs : FS) : List SS_Table :=
  let loaded := listing.foldl (fun acc file =>
    match findSub INDEX_EXTENSION file with
    | none => acc
    | some i =>
      let data_file := file.take i
      let t := SS_Table.loadIndex fs file (data_file ++ DATA_EXTENSION)
      if t.indexLoaded then acc ++ [t] else acc) []
  sortByIndexName loaded

/-- A definitive layer answer in the sense of the spec: a found value, or
a tombstone report. -/
def definitiveAnswer (r : Bool × Bytes) : Bool :=
  r.1 || decide (r.2 = TOMBSTONE)

/-- The per-layer answers for a key in the spec's resolution order: the
active memtable, the immutable memtables newest first, the SSTables
newest first. -/
def layerAnswers (s : LSMTree) (key : Bytes) : List (Bool × Bytes) :=
  s.activeMemTable.get key ::
    (s.memTables.reverse.map (fun m => m.get key) ++
      s.sstables.reverse.map (fun t => t.getValue s.fs key))

/-- The spec's read rule: the first definitive answer wins, and with no
definitive answer the result is {false, empty}. -/
def resolveLayers (answers : List (Bool × Bytes)) : Bool × Bytes :=
  match answers.find? definitiveAnswer with
  | some r => if r.1 then r else (false, r.2)
  | none => (false, [])

/-- Keys of the base level, in list order. -/
def baseKeys (s : SkipList) : List Bytes := s.base.map Prod.fst

/-- Relation between consecutive skip-list levels: every key of the
higher level occurs on the lower one. -/
def containsLevel (lo hi : List Bytes) : Prop := ∀ x ∈ hi, x ∈ lo

/-- Structural well-formedness of a skip list, as maintained by put:
strictly ascending base keys, strictly ascending upper levels, and every
promoted key mirrored on the level below. -/
def SLWF (s : SkipList) : Prop :=
  List.Sorted (· < ·) (baseKeys s) ∧
    (∀ lvl ∈ s.upper, List.Sorted (· < ·) lvl) ∧
    List.Chain' containsLevel (baseKeys s :: s.upper)

/-- The result is the greatest element of the list that is ≤ the target,
when one exists. -/
def isGreatestLe (l : List Bytes) (t : Bytes) : Option Bytes → Prop
  | none => ∀ x ∈ l, ¬ x ≤ t
  | some m => m ∈ l ∧ m ≤ t ∧ ∀ x ∈ l, x ≤ t → x ≤ m

/-- Option-valued association lookup by key. -/
def mapLookup (m : List (Bytes × Bytes)) (k : Bytes) : Option Bytes :=
  (m.find? (fun kv => kv.1 = k)).map Prod.snd

/-- Value of the first record carrying the key in a record stream. -/
def firstVal (records : List (Bytes × Bytes)) (k : Bytes) : Option Bytes :=
  (records.find? (fun kv => kv.1 = k)).map Prod.snd

/-- A skip-list put event: key, value and the promotion coin flips. -/
abbrev PutEvent := Bytes × Bytes × List Bool

/-- Skip list obtained by a sequence of put operations on a fresh list. -/
def buildSkip (ops : List PutEvent) : SkipList :=
  ops.foldl (fun s op => s.put op.1 op.2.1 op.2.2) SkipList.empty

/-- Value of the most recent put of a key in a put sequence. -/
def lastPutValue (ops : List PutEvent) (k : Bytes) : Option Bytes :=
  ((ops.filter (fun op => op.1 = k)).getLast?).map (fun op => op.2.1)

/-- Byte size accrued over the first-insert events of a put sequence:
puts of the empty key hit the sentinel and accrue nothing, repeated keys
accrue only once. -/
def accruedSize : List PutEvent → List Bytes → Nat
  | [], _ => 0
  | op :: rest, seen =>
    if op.1 = [] ∨ op.1 ∈ seen then accruedSize rest seen
    else kvSize op.1 op.2.1 + accruedSize rest (op.1 :: seen)

/-- Operations and background-worker steps of the LSM coordinator. -/
inductive LSMOp where
  | putOp (key value : Bytes) (flips : List Bool)
  | removeOp (key : Bytes) (flips : List Bool)
  | flushOp
  | compactOp
deriving DecidableEq

/-- Apply one operation or worker step. -/
def applyOp (cfg : Config) (s : LSMTree) : LSMOp → LSMTree
  | .putOp k v f => LSMTree.put cfg s k v f
  | .removeOp k f => s.remove k f
  | .flushOp => s.flush_memtable
  | .compactOp => LSMTree.perform_compaction cfg s

/-- LSM state reached by a sequence of operations from a fresh tree. -/
def buildLSM (cfg : Config) (ops : List LSMOp) : LSMTree :=
  ops.foldl (applyOp cfg) LSMTree.initial

/-- All bytes of the list are bytes. -/
def ByteValid (bs : Bytes) : Prop := ∀ b ∈ bs, b < 256

/-- A record that round-trips through the on-disk encoding: byte-valued
contents and sizes that fit the u32 length fields. -/
def EntryValid (kv : Bytes × Bytes) : Prop :=
  kv.1.length < 2 ^ 32 ∧ kv.2.length < 2 ^ 32 ∧ ByteValid kv.1 ∧ ByteValid kv.2

/-- A memtable whose flush round-trips: valid records, strictly
ascending keys, index-entry count below the u64 header bound and offsets
below the u64 field bound. -/
def ValidEntries (entries : List (Bytes × Bytes)) : Prop :=
  (∀ kv ∈ entries, EntryValid kv) ∧
    List.Sorted (· < ·) (entries.map Prod.fst) ∧
    entries.length < 2 ^ 64 ∧
    (entries.map recordSize).sum < 2 ^ 64

/-- The empty byte string is the lexicographic minimum. -/
theorem bytes_le_nil {x : Bytes} (h : x ≤ ([] : Bytes)) : x = [] := by
  cases x with
  | nil => rfl
  | cons a t => exact absurd h (not_le.mpr (List.nil_lt_cons a t))

/-- Behaviour of the rightward scan on a sorted level: the scan either
stays at the accumulator or stops at a level key ≤ the target, and every
level key ≤ the target is bounded by the key where the scan stops. -/
theorem advanceRight_spec (t : Bytes) (l : List Bytes) (acc : Option Bytes)
    (hs : List.Sorted (· < ·) l) :
    (advanceRight t l acc = acc ∨
      ∃ m, advanceRight t l acc = some m ∧ m ∈ l ∧ m ≤ t) ∧
    (∀ x ∈ l, x ≤ t → ∃ m, advanceRight t l acc = some m ∧ x ≤ m) := by
  induction l generalizing acc with
  | nil => exact ⟨Or.inl rfl, fun x hx => absurd hx (List.not_mem_nil x)⟩
  | cons k rest ih =>
    have hrest : List.Sorted (· < ·) rest := (List.sorted_cons.mp hs).2
    have hhead : ∀ b ∈ rest, k < b := (List.sorted_cons.mp hs).1
    by_cases hk : k ≤ t
    · have heq : advanceRight t (k :: rest) acc = advanceRight t rest (some k) := by
        simp [advanceRight, hk]
      obtain ⟨ih1, ih2⟩ := ih (some k) hrest
      constructor
      · rcases ih1 with h | ⟨m, hm, hmem, hle⟩
        · exact Or.inr ⟨k, by rw [heq, h], List.mem_cons_self k rest, hk⟩
        · exact Or.inr ⟨m, by rw [heq, hm], List.mem_cons_of_mem k hmem, hle⟩
      · intro x hx hxle
        rcases List.mem_cons.mp hx with rfl | hx
        · rcases ih1 with h | ⟨m, hm, hmem, _⟩
          · exact ⟨x, by rw [heq, h], le_refl x⟩
          · exact ⟨m, by rw [heq, hm], le_of_lt (hhead m hmem)⟩
        · obtain ⟨m, hm, hle⟩ := ih2 x hx hxle
          exact ⟨m, by rw [heq, hm], hle⟩
    · have heq : advanceRight t (k :: rest) acc = acc := by
        simp [advanceRight, hk]
      refine ⟨Or.inl heq, ?_⟩
      intro x hx hxle
      rcases List.mem_cons.mp hx with rfl | hx
      · exact absurd hxle hk
      · exact absurd (le_trans (le_of_lt (hhead x hx)) hxle) hk

/-- The suffix past a node is part of the level. -/
theorem suffixAfter_sublist (pos : Option Bytes) (l : List Bytes) :
    (suffixAfter pos l).Sublist l := by
  cases pos with
  | none => exact List.Sublist.refl l
  | some p =>
    exact ((List.drop_sublist 1 _).trans (List.dropWhile_sublist _))

/-- Decomposition of a sorted level at a member key: the level is the
strictly smaller keys, the key itself, then the suffix the scan resumes
at. -/
theorem suffixAfter_decomp {l : List Bytes} {p : Bytes}
    (hs : List.Sorted (· < ·) l) (hp : p ∈ l) :
    ∃ pre, l = pre ++ p :: suffixAfter (some p) l ∧ ∀ x ∈ pre, x < p := by
  induction l with
  | nil => exact absurd hp (List.not_mem_nil p)
  | cons a rest ih =>
    by_cases hap : a = p
    · subst hap
      refine ⟨[], ?_, by intro x hx; exact absurd hx (List.not_mem_nil x)⟩
      simp [suffixAfter, List.dropWhile]
    · have hp' : p ∈ rest := by
        rcases List.mem_cons.mp hp with h | h
        · exact absurd h.symm hap
        · exact h
      obtain ⟨pre', heq, hpre⟩ := ih (List.sorted_cons.mp hs).2 hp'
      have hsuffix : suffixAfter (some p) (a :: rest) = suffixAfter (some p) rest := by
        simp [suffixAfter, List.dropWhile, hap]
      refine ⟨a :: pre', ?_, ?_⟩
      · rw [hsuffix]
        simpa using heq
      · intro x hx
        rcases List.mem_cons.mp hx with rfl | hx
        · exact (List.sorted_cons.mp hs).1 p hp'
        · exact hpre x hx

/-- Stopping node of a single-level traversal from a node of that level:
it is the greatest level key ≤ the target. -/
theorem searchLevel_greatestLe {l : List Bytes} {pos : Option Bytes} {t : Bytes}
    (hs : List.Sorted (· < ·) l)
    (hpos : ∀ p, pos = some p → p ∈ l ∧ p ≤ t) :
    isGreatestLe l t (searchLevel pos l t) := by
  cases pos with
  | none =>
    have hsuf : suffixAfter none l = l := rfl
    obtain ⟨h1, h2⟩ := advanceRight_spec t l none hs
    unfold searchLevel
    rw [hsuf]
    rcases h1 with h | ⟨m, hm, hmem, hle⟩
    · rw [h]
      intro x hx hxle
      obtain ⟨m, hm, _⟩ := h2 x hx hxle
      rw [h] at hm
      exact Option.noConfusion hm
    · rw [hm]
      refine ⟨hmem, hle, ?_⟩
      intro x hx hxle
      obtain ⟨m', hm', hle'⟩ := h2 x hx hxle
      rw [hm] at hm'
      exact (Option.some.inj hm') ▸ hle'
  | some p =>
    obtain ⟨hpmem, hple⟩ := hpos p rfl
    obtain ⟨pre, heq, hpre⟩ := suffixAfter_decomp hs hpmem
    set suf := suffixAfter (some p) l with hsufdef
    have hsorted_tail : List.Sorted (· < ·) (p :: suf) := by
      have : (p :: suf).Sublist l := by
        rw [heq]; exact List.sublist_append_right pre (p :: suf)
      exact List.Pairwise.sublist this hs
    have hsuf_gt : ∀ y ∈ suf, p < y := (List.sorted_cons.mp hsorted_tail).1
    have hsuf_sorted : List.Sorted (· < ·) suf := (List.sorted_cons.mp hsorted_tail).2
    obtain ⟨h1, h2⟩ := advanceRight_spec t suf (some p) hsuf_sorted
    unfold searchLevel
    rw [← hsufdef]
    have hres : ∃ m, advanceRight t suf (some p) = some m ∧ m ≤ t ∧ p ≤ m ∧ m ∈ l := by
      rcases h1 with h | ⟨m, hm, hmem, hle⟩
      · exact ⟨p, h, hple, le_refl p, hpmem⟩
      · refine ⟨m, hm, hle, le_of_lt (hsuf_gt m hmem), ?_⟩
        rw [heq]
        exact List.mem_append.mpr (Or.inr (List.mem_cons_of_mem p hmem))
    obtain ⟨m, hm, hmle, hpm, hmmem⟩ := hres
    rw [hm]
    refine ⟨hmmem, hmle, ?_⟩
    intro x hx hxle
    rw [heq] at hx
    rcases List.mem_append.mp hx with hx | hx
    · exact le_trans (le_of_lt (hpre x hx)) hpm
    · rcases List.mem_cons.mp hx with rfl | hx
      · exact hpm
      · obtain ⟨m', hm', hle'⟩ := h2 x hx hxle
        rw [hm] at hm'
        exact (Option.some.inj hm') ▸ hle'

/-- The upper-level traversal stops at a key of the level below it (and
hence of every lower level), and that key is ≤ the target. -/
theorem searchUpper_mem (t : Bytes) :
    ∀ (us : List (List Bytes)) (low : List Bytes),
    List.Chain' containsLevel (low :: us) →
    (∀ lvl ∈ us, List.Sorted (· < ·) lvl) →
    ∀ p, us.foldr (fun lvl pos => searchLevel pos lvl t) none = some p →
      p ∈ low ∧ p ≤ t := by
  intro us
  induction us with
  | nil =>
    intro low _ _ p hp
    exact Option.noConfusion hp
  | cons lvl rest ih =>
    intro low hchain hsorted p hp
    have hlink : containsLevel low lvl := (List.chain'_cons.mp hchain).1
    have hchain' : List.Chain' containsLevel (lvl :: rest) := (List.chain'_cons.mp hchain).2
    have hrec := ih lvl hchain' (fun l hl => hsorted l (List.mem_cons_of_mem lvl hl))
    have hfold : (lvl :: rest).foldr (fun lvl pos => searchLevel pos lvl t) none =
        searchLevel (rest.foldr (fun lvl pos => searchLevel pos lvl t) none) lvl t := rfl
    rw [hfold] at hp
    set pos := rest.foldr (fun lvl pos => searchLevel pos lvl t) none with hposdef
    have hlvl_sorted : List.Sorted (· < ·) lvl := hsorted lvl (List.mem_cons_self lvl rest)
    have hin_lvl : p ∈ lvl ∧ p ≤ t := by
      have hg := @searchLevel_greatestLe lvl pos t hlvl_sorted
        (fun q hq => hrec q hq)
      rw [hp] at hg
      exact ⟨hg.1, hg.2.1⟩
    exact ⟨hlink p hin_lvl.1, hin_lvl.2⟩

/-- SkipList::search on a well-formed skip list returns the greatest
base-level key ≤ the target, or the sentinel when every base key
exceeds it. -/
theorem search_isGreatestLe {s : SkipList} {t : Bytes} (h : SLWF s) :
    isGreatestLe (baseKeys s) t (s.search t) := by
  obtain ⟨hb, hu, hc⟩ := h
  unfold SkipList.search
  exact searchLevel_greatestLe hb (fun p hp => searchUpper_mem t s.upper (baseKeys s) hc hu p hp)

/-- Search finds a base key that is present. -/
theorem search_eq_of_mem {s : SkipList} {k : Bytes} (h : SLWF s)
    (hk : k ∈ baseKeys s) : s.search k = some k := by
  have hg := search_isGreatestLe (t := k) h
  cases hsearch : s.search k with
  | none =>
    rw [hsearch] at hg
    exact absurd (le_refl k) (hg k hk)
  | some m =>
    rw [hsearch] at hg
    obtain ⟨_, hmle, hmax⟩ := hg
    rw [le_antisymm hmle (hmax k hk (le_refl k))]

/-- For an absent nonempty key, the node where search stops has a
different key. -/
theorem search_nodeKey_of_not_mem {s : SkipList} {k : Bytes} (h : SLWF s)
    (hk : k ∉ baseKeys s) (hne : k ≠ []) : nodeKey (s.search k) ≠ k := by
  have hg := search_isGreatestLe (t := k) h
  cases hsearch : s.search k with
  | none => simpa [nodeKey] using hne
  | some m =>
    rw [hsearch] at hg
    simp only [nodeKey]
    intro heq
    exact hk (heq ▸ hg.1)

/-- For the absent empty key, search stops at the sentinel. -/
theorem search_nil_of_not_mem {s : SkipList} (h : SLWF s)
    (hk : [] ∉ baseKeys s) : s.search [] = none := by
  have hg := search_isGreatestLe (t := ([] : Bytes)) h
  cases hsearch : s.search [] with
  | none => rfl
  | some m =>
    rw [hsearch] at hg
    exact absurd hg.1 (bytes_le_nil hg.2.1 ▸ hk)

/-- SkipList::get of an absent nonempty key answers {false, empty}. -/
theorem skiplist_get_of_not_mem {s : SkipList} {k : Bytes} (h : SLWF s)
    (hne : k ≠ []) (hk : k ∉ baseKeys s) : s.get k = (false, []) := by
  unfold SkipList.get
  rw [if_neg (search_nodeKey_of_not_mem h hk hne)]

/-- SkipList::get of a present key answers {true, stored value}. -/
theorem skiplist_get_of_mem {s : SkipList} {k : Bytes} (h : SLWF s)
    (hk : k ∈ baseKeys s) : s.get k = (true, baseLookup s.base k) := by
  unfold SkipList.get
  rw [search_eq_of_mem h hk]
  simp [nodeKey, SkipList.nodeValue]

/-- SkipList::put of a present key overwrites the stored value in
place. -/
theorem skiplist_put_of_mem {s : SkipList} {k : Bytes} (h : SLWF s)
    (hk : k ∈ baseKeys s) (v : Bytes) (f : List Bool) :
    s.put k v f = { s with base := setVal s.base k v } := by
  unfold SkipList.put
  rw [search_eq_of_mem h hk]
  simp [nodeKey]

/-- SkipList::put of the absent empty key writes the sentinel's value
field and changes nothing else. -/
theorem skiplist_put_nil_of_not_mem {s : SkipList} (h : SLWF s)
    (hk : [] ∉ baseKeys s) (v : Bytes) (f : List Bool) :
    s.put [] v f = { s with sentVal := v } := by
  unfold SkipList.put
  rw [search_nil_of_not_mem h hk]
  simp [nodeKey]

/-- Decomposition of a key-sorted association list at a member key,
together with the effect of splicing a new node right after it. -/
theorem mem_keys_decomp {base : List (Bytes × Bytes)} {p : Bytes}
    (hs : List.Sorted (· < ·) (base.map Prod.fst)) (hp : p ∈ base.map Prod.fst)
    (kv : Bytes × Bytes) :
    ∃ pre vp suf, base = pre ++ (p, vp) :: suf ∧
      (∀ x ∈ pre.map Prod.fst, x < p) ∧
      spliceAfter p kv base = pre ++ (p, vp) :: kv :: suf := by
  induction base with
  | nil => exact absurd hp (List.not_mem_nil p)
  | cons a rest ih =>
    obtain ⟨a1, a2⟩ := a
    simp only [List.map_cons] at hs hp
    by_cases hap : a1 = p
    · subst hap
      refine ⟨[], a2, rest, rfl, ?_, ?_⟩
      · intro x hx; exact absurd hx (List.not_mem_nil x)
      · simp [spliceAfter]
    · have hp' : p ∈ rest.map Prod.fst := by
        rcases List.mem_cons.mp hp with h | h
        · exact absurd h.symm hap
        · exact h
      obtain ⟨pre', vp, suf, heq, hpre, hsplice⟩ := ih (List.sorted_cons.mp hs).2 hp'
      refine ⟨(a1, a2) :: pre', vp, suf, by rw [heq]; rfl, ?_, ?_⟩
      · intro x hx
        rcases List.mem_cons.mp hx with rfl | hx
        · exact (List.sorted_cons.mp hs).1 p hp'
        · exact hpre x hx
      · simp [spliceAfter, hap, hsplice]

/-- SkipList::put of an absent nonempty key: the new node is spliced
between the strictly smaller and the strictly larger keys, the key is
promoted through the upper levels, and the tracked size accrues the
pair's size. -/
theorem skiplist_put_of_not_mem {s : SkipList} {k : Bytes} (h : SLWF s)
    (hne : k ≠ []) (hk : k ∉ baseKeys s) (v : Bytes) (f : List Bool) :
    ∃ pre suf, s.base = pre ++ suf ∧
      (s.put k v f).base = pre ++ (k, v) :: suf ∧
      (∀ x ∈ pre.map Prod.fst, x < k) ∧
      (∀ x ∈ suf.map Prod.fst, k < x) ∧
      (s.put k v f).upper =
        insertUpperLevels k (min (countLeadingTrue f) MAX_LEVEL) s.upper ∧
      (s.put k v f).sentVal = s.sentVal ∧
      (s.put k v f).totalSize = s.totalSize + kvSize k v := by
  have hg := search_isGreatestLe (t := k) h
  have hnk : nodeKey (s.search k) ≠ k := search_nodeKey_of_not_mem h hk hne
  cases hsearch : s.search k with
  | none =>
    rw [hsearch] at hg
    refine ⟨[], s.base, rfl, ?_, ?_, ?_, ?_, ?_, ?_⟩
    · unfold SkipList.put
      rw [hsearch]
      simp [nodeKey, hne.symm]
    · intro x hx; exact absurd hx (List.not_mem_nil x)
    · intro x hx
      exact lt_of_not_le (hg x hx)
    · unfold SkipList.put
      rw [hsearch]
      simp [nodeKey, hne.symm]
    · unfold SkipList.put
      rw [hsearch]
      simp [nodeKey, hne.symm]
    · unfold SkipList.put
      rw [hsearch]
      simp [nodeKey, hne.symm]
  | some p =>
    rw [hsearch] at hg
    obtain ⟨hpmem, hple, hmax⟩ := hg
    have hpk : p ≠ k := fun heq => hk (heq ▸ hpmem)
    obtain ⟨pre, vp, suf, heq, hpre, hsplice⟩ := mem_keys_decomp h.1 hpmem (k, v)
    have hput : (s.put k v f).base = spliceAfter p (k, v) s.base ∧
        (s.put k v f).upper =
          insertUpperLevels k (min (countLeadingTrue f) MAX_LEVEL) s.upper ∧
        (s.put k v f).sentVal = s.sentVal ∧
        (s.put k v f).totalSize = s.totalSize + kvSize k v := by
      unfold SkipList.put
      rw [hsearch]
      simp [nodeKey, hpk]
    have hsuf_gt : ∀ x ∈ suf.map Prod.fst, k < x := by
      intro x hx
      have hxmem : x ∈ baseKeys s := by
        unfold baseKeys
        rw [heq]
        simp only [List.map_append, List.mem_append, List.map_cons, List.mem_cons]
        exact Or.inr (Or.inr hx)
      have hpx : p < x := by
        have hsorted := h.1
        unfold baseKeys at hsorted
        rw [heq] at hsorted
        have : List.Sorted (· < ·) ((p, vp).1 :: suf.map Prod.fst) := by
          have hsub : ((p, vp) :: suf).Sublist (pre ++ (p, vp) :: suf) :=
            List.sublist_append_right pre ((p, vp) :: suf)
          have := List.Pairwise.sublist (hsub.map Prod.fst) hsorted
          simpa using this
        exact (List.sorted_cons.mp this).1 x hx
      by_contra hcon
      have hxk : x ≤ k := le_of_not_lt hcon
      exact absurd (hmax x hxmem hxk) (not_le.mpr hpx)
    refine ⟨pre ++ [(p, vp)], suf, by simp [heq], ?_, ?_, hsuf_gt, hput.2.1, hput.2.2.1,
      hput.2.2.2⟩
    · rw [hput.1, hsplice]
      simp
    · intro x hx
      simp only [List.map_append, List.mem_append, List.map_cons, List.map_nil,
        List.mem_cons, List.not_mem_nil, or_false] at hx
      rcases hx with hx | hx
      · exact lt_of_lt_of_le (hpre x hx) (lt_of_le_of_ne hple hpk).le
      · rw [hx]
        exact lt_of_le_of_ne hple hpk

/-- setVal preserves the key sequence. -/
theorem setVal_map_fst (base : List (Bytes × Bytes)) (k v : Bytes) :
    (setVal base k v).map Prod.fst = base.map Prod.fst := by
  induction base with
  | nil => rfl
  | cons a rest ih =>
    by_cases hak : a.1 = k
    · simp [setVal, hak]
    · simp [setVal, hak, ih]

/-- Lookup after setVal of the present key. -/
theorem find?_setVal_self {base : List (Bytes × Bytes)} {k : Bytes}
    (hk : k ∈ base.map Prod.fst) (v : Bytes) :
    (setVal base k v).find? (fun kv => kv.1 = k) = some (k, v) := by
  induction base with
  | nil => exact absurd hk (List.not_mem_nil k)
  | cons a rest ih =>
    by_cases hak : a.1 = k
    · simp [setVal, hak, List.find?_cons]
    · simp only [List.map_cons] at hk
      have hk' : k ∈ rest.map Prod.fst := by
        rcases List.mem_cons.mp hk with h | h
        · exact absurd h.symm hak
        · exact h
      simp [setVal, hak, List.find?_cons, ih hk']

/-- Lookup of a different key is unchanged by setVal. -/
theorem find?_setVal_other {base : List (Bytes × Bytes)} {k k' : Bytes}
    (hne : k' ≠ k) (v : Bytes) :
    (setVal base k v).find? (fun kv => kv.1 = k') = base.find? (fun kv => kv.1 = k') := by
  induction base with
  | nil => rfl
  | cons a rest ih =>
    obtain ⟨a1, a2⟩ := a
    have hkk' : ¬ k = k' := fun h => hne h.symm
    by_cases hak : a1 = k
    · simp [setVal, hak, List.find?_cons, hkk']
    · by_cases hak' : a1 = k'
      · simp [setVal, hak, List.find?_cons, hak', hne]
      · simp [setVal, hak, List.find?_cons, hak', ih]

/-- Membership in an upper level after the promotion insert. -/
theorem mem_insertKey {k x : Bytes} (l : List Bytes) :
    x ∈ insertKey k l ↔ x = k ∨ x ∈ l := by
  induction l with
  | nil => simp [insertKey]
  | cons a rest ih =>
    by_cases hak : a < k
    · simp only [insertKey, if_pos hak, List.mem_cons, ih]
      tauto
    · simp only [insertKey, if_neg hak, List.mem_cons]

/-- The promotion insert keeps an upper level strictly sorted when the
key is new to it. -/
theorem insertKey_sorted {k : Bytes} {l : List Bytes}
    (hs : List.Sorted (· < ·) l) (hk : k ∉ l) :
    List.Sorted (· < ·) (insertKey k l) := by
  induction l with
  | nil => simp [insertKey]
  | cons a rest ih =>
    obtain ⟨ha, hrest⟩ := List.sorted_cons.mp hs
    by_cases hak : a < k
    · rw [insertKey, if_pos hak]
      refine List.sorted_cons.mpr ⟨?_, ih hrest (fun h => hk (List.mem_cons_of_mem a h))⟩
      intro b hb
      rcases (mem_insertKey rest).mp hb with rfl | hb
      · exact hak
      · exact ha b hb
    · have hka : k < a := by
        rcases lt_trichotomy a k with h | h | h
        · exact absurd h hak
        · exact absurd (h ▸ List.mem_cons_self a rest) hk
        · exact h
      rw [insertKey, if_neg hak]
      refine List.sorted_cons.mpr ⟨?_, hs⟩
      intro b hb
      rcases List.mem_cons.mp hb with rfl | hb
      · exact hka
      · exact lt_trans hka (ha b hb)

/-- All levels stay strictly sorted through the promotion loop when the
key is new to all of them. -/
theorem insertUpperLevels_sorted {k : Bytes} :
    ∀ (c : Nat) (u : List (List Bytes)),
    (∀ lvl ∈ u, List.Sorted (· < ·) lvl) →
    (∀ lvl ∈ u, k ∉ lvl) →
    ∀ lvl ∈ insertUpperLevels k c u, List.Sorted (· < ·) lvl := by
  intro c
  induction c with
  | zero => intro u hu _ lvl hl; exact hu lvl hl
  | succ c ih =>
    intro u hu hk lvl hl
    cases u with
    | nil =>
      rw [insertUpperLevels] at hl
      rcases List.mem_cons.mp hl with rfl | hl
      · simp
      · exact ih [] (by intro l h; exact absurd h (List.not_mem_nil l))
          (by intro l h; exact absurd h (List.not_mem_nil l)) lvl hl
    | cons l0 rest =>
      rw [insertUpperLevels] at hl
      rcases List.mem_cons.mp hl with rfl | hl
      · exact insertKey_sorted (hu l0 (List.mem_cons_self l0 rest))
          (hk l0 (List.mem_cons_self l0 rest))
      · exact ih rest (fun l h => hu l (List.mem_cons_of_mem l0 h))
          (fun l h => hk l (List.mem_cons_of_mem l0 h)) lvl hl

/-- Every key of every upper level occurs on the base level. -/
theorem chain_mem_base :
    ∀ (us : List (List Bytes)) (b : List Bytes),
    List.Chain' containsLevel (b :: us) →
    ∀ lvl ∈ us, ∀ x ∈ lvl, x ∈ b := by
  intro us
  induction us with
  | nil => intro b _ lvl hl; exact absurd hl (List.not_mem_nil lvl)
  | cons l0 rest ih =>
    intro b hchain lvl hl x hx
    have hlink : containsLevel b l0 := (List.chain'_cons.mp hchain).1
    rcases List.mem_cons.mp hl with rfl | hl
    · exact hlink x hx
    · exact hlink x (ih l0 (List.chain'_cons.mp hchain).2 lvl hl x hx)

/-- Weakening the bottom of a level-containment chain. -/
theorem chain_weaken {us : List (List Bytes)} {low newlow : List Bytes}
    (hchain : List.Chain' containsLevel (low :: us))
    (hsub : ∀ x ∈ low, x ∈ newlow) :
    List.Chain' containsLevel (newlow :: us) := by
  cases us with
  | nil => exact List.chain'_singleton newlow
  | cons l0 rest =>
    refine List.chain'_cons.mpr ⟨?_, (List.chain'_cons.mp hchain).2⟩
    intro x hx
    exact hsub x ((List.chain'_cons.mp hchain).1 x hx)

/-- The level-containment chain survives the promotion loop once the new
key is on the (new) base level. -/
theorem chain_insertUpperLevels {k : Bytes} :
    ∀ (c : Nat) (u : List (List Bytes)) (low newlow : List Bytes),
    List.Chain' containsLevel (low :: u) →
    (∀ x ∈ low, x ∈ newlow) →
    k ∈ newlow →
    List.Chain' containsLevel (newlow :: insertUpperLevels k c u) := by
  intro c
  induction c with
  | zero =>
    intro u low newlow hchain hsub _
    exact chain_weaken hchain hsub
  | succ c ih =>
    intro u low newlow hchain hsub hkmem
    cases u with
    | nil =>
      rw [insertUpperLevels]
      refine List.chain'_cons.mpr ⟨?_, ?_⟩
      · intro x hx
        rcases List.mem_cons.mp hx with rfl | hx
        · exact hkmem
        · exact absurd hx (List.not_mem_nil x)
      · exact ih [] [k] [k] (List.chain'_singleton [k]) (fun x hx => hx)
          (List.mem_cons_self k [])
    | cons l0 rest =>
      rw [insertUpperLevels]
      refine List.chain'_cons.mpr ⟨?_, ?_⟩
      · intro x hx
        rcases (mem_insertKey l0).mp hx with rfl | hx
        · exact hkmem
        · exact hsub x ((List.chain'_cons.mp hchain).1 x hx)
      · exact ih rest l0 (insertKey k l0) (List.chain'_cons.mp hchain).2
          (fun x hx => (mem_insertKey l0).mpr (Or.inr hx))
          ((mem_insertKey l0).mpr (Or.inl rfl))

/-- Well-formedness is preserved by SkipList::put, whatever the coin
flips. -/
theorem SLWF_put {s : SkipList} (h : SLWF s) (k v : Bytes) (f : List Bool) :
    SLWF (s.put k v f) := by
  by_cases hk : k ∈ baseKeys s
  · rw [skiplist_put_of_mem h hk v f]
    obtain ⟨hb, hu, hc⟩ := h
    refine ⟨?_, hu, ?_⟩
    · unfold baseKeys
      simpa [setVal_map_fst] using hb
    · unfold baseKeys at hc ⊢
      simpa [setVal_map_fst] using hc
  · by_cases hnil : k = []
    · subst hnil
      rw [skiplist_put_nil_of_not_mem h hk v f]
      exact h
    · obtain ⟨pre, suf, hbase, hbase', hpre, hsuf, hupper, hsent, hsize⟩ :=
        skiplist_put_of_not_mem h hnil hk v f
      obtain ⟨hb, hu, hc⟩ := h
      have hkeys' : baseKeys (s.put k v f) =
          pre.map Prod.fst ++ k :: suf.map Prod.fst := by
        unfold baseKeys
        rw [hbase']
        simp
      have hkeys : baseKeys s = pre.map Prod.fst ++ suf.map Prod.fst := by
        unfold baseKeys
        rw [hbase]
        simp
      have hcross : ∀ a ∈ pre.map Prod.fst, ∀ b ∈ suf.map Prod.fst, a < b := by
        have := hb
        rw [hkeys] at this
        exact fun a ha b hb' => ((List.pairwise_append.mp this).2.2) a ha b hb'
      have hsorted' : List.Sorted (· < ·) (baseKeys (s.put k v f)) := by
        rw [hkeys']
        refine List.pairwise_append.mpr ⟨?_, ?_, ?_⟩
        · rw [hkeys] at hb
          exact (List.pairwise_append.mp hb).1
        · refine List.sorted_cons.mpr ⟨hsuf, ?_⟩
          rw [hkeys] at hb
          exact (List.pairwise_append.mp hb).2.1
        · intro a ha b hb'
          rcases List.mem_cons.mp hb' with rfl | hb'
          · exact hpre a ha
          · exact hcross a ha b hb'
      refine ⟨hsorted', ?_, ?_⟩
      · rw [hupper]
        refine insertUpperLevels_sorted _ s.upper hu ?_
        intro lvl hl hmem
        exact hk (chain_mem_base s.upper (baseKeys s) hc lvl hl k hmem)
      · rw [hupper, hkeys']
        refine chain_insertUpperLevels _ s.upper (baseKeys s) _ hc ?_ ?_
        · intro x hx
          rw [hkeys] at hx
          rw [List.mem_append] at hx
          rcases hx with hx | hx
          · exact List.mem_append.mpr (Or.inl hx)
          · exact List.mem_append.mpr (Or.inr (List.mem_cons_of_mem k hx))
        · exact List.mem_append.mpr (Or.inr (List.mem_cons_self k _))

/-- A fresh skip list is well-formed. -/
theorem SLWF_empty : SLWF SkipList.empty := by
  refine ⟨List.sorted_nil, ?_, ?_⟩
  · intro lvl hl
    exact absurd hl (List.not_mem_nil lvl)
  · exact List.chain'_singleton _

/-- Key membership on the base level after a put of a nonempty key. -/
theorem mem_baseKeys_put {s : SkipList} {k : Bytes} (h : SLWF s) (hne : k ≠ [])
    (v : Bytes) (f : List Bool) (x : Bytes) :
    x ∈ baseKeys (s.put k v f) ↔ x = k ∨ x ∈ baseKeys s := by
  by_cases hk : k ∈ baseKeys s
  · rw [skiplist_put_of_mem h hk v f]
    have : baseKeys { s with base := setVal s.base k v } = baseKeys s := by
      unfold baseKeys
      exact setVal_map_fst s.base k v
    rw [this]
    constructor
    · exact Or.inr
    · rintro (rfl | hx)
      · exact hk
      · exact hx
  · obtain ⟨pre, suf, hbase, hbase', _, _, _, _, _⟩ :=
      skiplist_put_of_not_mem h hne hk v f
    have h1 : baseKeys (s.put k v f) = pre.map Prod.fst ++ k :: suf.map Prod.fst := by
      unfold baseKeys
      rw [hbase']
      simp
    have h2 : baseKeys s = pre.map Prod.fst ++ suf.map Prod.fst := by
      unfold baseKeys
      rw [hbase]
      simp
    rw [h1, h2]
    simp only [List.mem_append, List.mem_cons]
    tauto

/-- A put of the empty key never adds a base node (it writes the
sentinel's value or overwrites an existing node). -/
theorem put_nil_base {s : SkipList} (h : SLWF s) (hnil : [] ∉ baseKeys s)
    (v : Bytes) (f : List Bool) :
    (s.put [] v f).base = s.base ∧ (s.put [] v f).totalSize = s.totalSize := by
  rw [skiplist_put_nil_of_not_mem h hnil v f]
  exact ⟨rfl, rfl⟩

/-- The base level never acquires an empty key. -/
theorem not_nil_baseKeys_put {s : SkipList} {k : Bytes} (h : SLWF s)
    (hnil : [] ∉ baseKeys s) (v : Bytes) (f : List Bool) :
    [] ∉ baseKeys (s.put k v f) := by
  by_cases hne : k = []
  · subst hne
    have := (put_nil_base h hnil v f).1
    unfold baseKeys
    rw [this]
    exact hnil
  · intro hmem
    rcases (mem_baseKeys_put h hne v f []).mp hmem with h' | h'
    · exact hne h'.symm
    · exact hnil h'

/-- Lookup of the key just put (nonempty keys). -/
theorem mapLookup_put_self {s : SkipList} {k : Bytes} (h : SLWF s) (hne : k ≠ [])
    (v : Bytes) (f : List Bool) :
    mapLookup (s.put k v f).base k = some v := by
  by_cases hk : k ∈ baseKeys s
  · rw [skiplist_put_of_mem h hk v f]
    unfold mapLookup
    rw [find?_setVal_self hk v]
    rfl
  · obtain ⟨pre, suf, _, hbase', hpre, _, _, _, _⟩ :=
      skiplist_put_of_not_mem h hne hk v f
    unfold mapLookup
    rw [hbase', List.find?_append]
    have hprenone : pre.find? (fun kv => decide (kv.1 = k)) = none := by
      rw [List.find?_eq_none]
      intro x hx
      simp only [decide_eq_true_eq]
      intro heq
      have hmem : x.1 ∈ pre.map Prod.fst := List.mem_map_of_mem Prod.fst hx
      exact absurd (heq ▸ hpre x.1 hmem) (lt_irrefl k)
    rw [hprenone]
    simp [List.find?_cons]

/-- Lookup of any other key is untouched by a put. -/
theorem mapLookup_put_other {s : SkipList} {k k' : Bytes} (h : SLWF s)
    (hne : k' ≠ k) (v : Bytes) (f : List Bool) :
    mapLookup (s.put k v f).base k' = mapLookup s.base k' := by
  by_cases hk : k ∈ baseKeys s
  · rw [skiplist_put_of_mem h hk v f]
    unfold mapLookup
    rw [find?_setVal_other hne v]
  · by_cases hknil : k = []
    · subst hknil
      rw [skiplist_put_nil_of_not_mem h hk v f]
    · obtain ⟨pre, suf, hbase, hbase', _, _, _, _, _⟩ :=
        skiplist_put_of_not_mem h hknil hk v f
      unfold mapLookup
      rw [hbase', hbase, List.find?_append, List.find?_append, List.find?_cons]
      have : (decide ((k, v).1 = k')) = false := by
        simp only [decide_eq_false_iff_not]
        exact fun heq => hne heq.symm
      rw [this]

/-- Size accounting of a put: unchanged on an existing key. -/
theorem totalSize_put_of_mem {s : SkipList} {k : Bytes} (h : SLWF s)
    (hk : k ∈ baseKeys s) (v : Bytes) (f : List Bool) :
    (s.put k v f).totalSize = s.totalSize := by
  rw [skiplist_put_of_mem h hk v f]

/-- The tracked size never decreases under put, whatever the branch. -/
theorem totalSize_put_mono (s : SkipList) (k v : Bytes) (f : List Bool) :
    s.totalSize ≤ (s.put k v f).totalSize := by
  unfold SkipList.put
  by_cases hc : nodeKey (s.search k) = k
  · rw [if_pos hc]
    cases hsearch : s.search k <;> simp
  · rw [if_neg hc]
    simp

/-- Invariants of any put sequence from a fresh list: well-formedness
and an empty-key-free base level. -/
theorem foldPut_wf :
    ∀ (ops : List PutEvent) (s : SkipList), SLWF s → [] ∉ baseKeys s →
    SLWF (ops.foldl (fun s op => s.put op.1 op.2.1 op.2.2) s) ∧
      [] ∉ baseKeys (ops.foldl (fun s op => s.put op.1 op.2.1 op.2.2) s) := by
  intro ops
  induction ops with
  | nil => exact fun s h hn => ⟨h, hn⟩
  | cons op rest ih =>
    intro s h hn
    exact ih (s.put op.1 op.2.1 op.2.2) (SLWF_put h op.1 op.2.1 op.2.2)
      (not_nil_baseKeys_put h hn op.2.1 op.2.2)

/-- The skip list built by a put sequence is well-formed and its base
level has no empty key. -/
theorem buildSkip_wf (ops : List PutEvent) :
    SLWF (buildSkip ops) ∧ [] ∉ baseKeys (buildSkip ops) := by
  have := foldPut_wf ops SkipList.empty SLWF_empty (by
    intro h
    exact absurd h (List.not_mem_nil _))
  exact this

/-- Peeling one event off the most-recent-put computation. -/
theorem lastPutValue_cons (op : PutEvent) (rest : List PutEvent) (k : Bytes) :
    lastPutValue (op :: rest) k =
      (lastPutValue rest k).or (if op.1 = k then some op.2.1 else none) := by
  unfold lastPutValue
  by_cases hop : op.1 = k
  · have : (op :: rest).filter (fun o => decide (o.1 = k)) =
        op :: rest.filter (fun o => decide (o.1 = k)) := by
      simp [List.filter_cons, hop]
    rw [this, if_pos hop]
    have : (op :: rest.filter (fun o => decide (o.1 = k))) =
        [op] ++ rest.filter (fun o => decide (o.1 = k)) := rfl
    rw [this, List.getLast?_append]
    cases hlast : (rest.filter (fun o => decide (o.1 = k))).getLast? <;> simp [Option.or]
  · have : (op :: rest).filter (fun o => decide (o.1 = k)) =
        rest.filter (fun o => decide (o.1 = k)) := by
      simp [List.filter_cons, hop]
    rw [this, if_neg hop]
    cases hlast : (rest.filter (fun o => decide (o.1 = k))).getLast? <;> simp [Option.or]

/-- Lookup through a fold of puts: the most recent put of the key wins,
falling back to the starting list. -/
theorem foldPut_lookup :
    ∀ (ops : List PutEvent) (s : SkipList), SLWF s → ∀ k, k ≠ [] →
    mapLookup ((ops.foldl (fun s op => s.put op.1 op.2.1 op.2.2) s)).base k =
      (lastPutValue ops k).or (mapLookup s.base k) := by
  intro ops
  induction ops with
  | nil =>
    intro s _ k _
    simp [lastPutValue, Option.or]
  | cons op rest ih =>
    intro s h k hk
    have hstep : mapLookup (s.put op.1 op.2.1 op.2.2).base k =
        (if op.1 = k then some op.2.1 else none).or (mapLookup s.base k) := by
      by_cases hop : op.1 = k
      · rw [if_pos hop, hop]
        rw [mapLookup_put_self h (hop ▸ hk) op.2.1 op.2.2]
        rfl
      · rw [if_neg hop]
        rw [mapLookup_put_other h (fun heq => hop heq.symm) op.2.1 op.2.2]
        rfl
    have hfold : (op :: rest).foldl (fun s op => s.put op.1 op.2.1 op.2.2) s =
        rest.foldl (fun s op => s.put op.1 op.2.1 op.2.2) (s.put op.1 op.2.1 op.2.2) := rfl
    rw [hfold, ih (s.put op.1 op.2.1 op.2.2) (SLWF_put h op.1 op.2.1 op.2.2) k hk,
      hstep, lastPutValue_cons, Option.or_assoc]

/-- Lookup on a built skip list equals the most recent put (nonempty
keys). -/
theorem buildSkip_lookup (ops : List PutEvent) (k : Bytes) (hk : k ≠ []) :
    mapLookup (buildSkip ops).base k = lastPutValue ops k := by
  have := foldPut_lookup ops SkipList.empty SLWF_empty k hk
  unfold buildSkip
  rw [this]
  have : mapLookup SkipList.empty.base k = none := rfl
  rw [this]
  cases lastPutValue ops k <;> simp [Option.or]

/-- An association lookup misses exactly when the key is absent. -/
theorem mapLookup_eq_none_iff (base : List (Bytes × Bytes)) (k : Bytes) :
    mapLookup base k = none ↔ k ∉ base.map Prod.fst := by
  unfold mapLookup
  constructor
  · intro h hk
    obtain ⟨kv, hkv, heq⟩ := List.mem_map.mp hk
    have := List.find?_eq_none.mp (by
      cases hfind : base.find? (fun kv => decide (kv.1 = k)) with
      | none => rfl
      | some x => rw [hfind] at h; exact Option.noConfusion h) kv hkv
    simp only [decide_eq_true_eq] at this
    exact this heq
  · intro hk
    cases hfind : base.find? (fun kv => decide (kv.1 = k)) with
    | none => rfl
    | some kv =>
      have hmem := List.mem_of_find?_eq_some hfind
      have hpred := List.find?_some hfind
      simp only [decide_eq_true_eq] at hpred
      exact absurd (hpred ▸ List.mem_map_of_mem Prod.fst hmem) hk

/-- The raw node value agrees with the association lookup. -/
theorem baseLookup_of_mapLookup {base : List (Bytes × Bytes)} {k v : Bytes}
    (h : mapLookup base k = some v) : baseLookup base k = v := by
  unfold mapLookup at h
  unfold baseLookup
  cases hfind : base.find? (fun kv => kv.1 = k) with
  | none => rw [hfind] at h; exact Option.noConfusion h
  | some kv =>
    rw [hfind] at h
    exact Option.some.inj h

/-- Size of a built skip list through a fold, tracking the set of keys
already inserted. -/
theorem foldPut_size :
    ∀ (ops : List PutEvent) (s : SkipList) (seen : List Bytes),
    SLWF s → [] ∉ baseKeys s → (∀ x : Bytes, x ∈ seen ↔ x ∈ baseKeys s) →
    (ops.foldl (fun s op => s.put op.1 op.2.1 op.2.2) s).totalSize =
      s.totalSize + accruedSize ops seen := by
  intro ops
  induction ops with
  | nil =>
    intro s seen _ _ _
    simp [accruedSize]
  | cons op rest ih =>
    intro s seen h hn hseen
    by_cases hcase : op.1 = [] ∨ op.1 ∈ seen
    · have haccEq : accruedSize (op :: rest) seen =
          if op.1 = [] ∨ op.1 ∈ seen then accruedSize rest seen
          else kvSize op.1 op.2.1 + accruedSize rest (op.1 :: seen) := rfl
      have hacc : accruedSize (op :: rest) seen = accruedSize rest seen := by
        rw [haccEq, if_pos hcase]
      rcases hcase with hnilk | hmem
      · have hput := skiplist_put_nil_of_not_mem h hn op.2.1 op.2.2
        have hfold : (op :: rest).foldl (fun s op => s.put op.1 op.2.1 op.2.2) s =
            rest.foldl (fun s op => s.put op.1 op.2.1 op.2.2)
              (s.put op.1 op.2.1 op.2.2) := rfl
        rw [hfold, hacc]
        have hkeys : baseKeys (s.put op.1 op.2.1 op.2.2) = baseKeys s := by
          rw [hnilk, hput]
          rfl
        have hsize : (s.put op.1 op.2.1 op.2.2).totalSize = s.totalSize := by
          rw [hnilk, hput]
        rw [ih (s.put op.1 op.2.1 op.2.2) seen (SLWF_put h _ _ _)
          (hkeys ▸ hn) (fun x => hkeys ▸ hseen x), hsize]
      · have hmemb : op.1 ∈ baseKeys s := (hseen op.1).mp hmem
        have hfold : (op :: rest).foldl (fun s op => s.put op.1 op.2.1 op.2.2) s =
            rest.foldl (fun s op => s.put op.1 op.2.1 op.2.2)
              (s.put op.1 op.2.1 op.2.2) := rfl
        rw [hfold, hacc]
        have hput := skiplist_put_of_mem h hmemb op.2.1 op.2.2
        have hkeys : baseKeys (s.put op.1 op.2.1 op.2.2) = baseKeys s := by
          rw [hput]
          unfold baseKeys
          exact setVal_map_fst s.base op.1 op.2.1
        have hsize : (s.put op.1 op.2.1 op.2.2).totalSize = s.totalSize := by
          rw [hput]
        rw [ih (s.put op.1 op.2.1 op.2.2) seen (SLWF_put h _ _ _)
          (hkeys ▸ hn) (fun x => hkeys ▸ hseen x), hsize]
    · push_neg at hcase
      obtain ⟨hnilk, hnotseen⟩ := hcase
      have hnotmem : op.1 ∉ baseKeys s := fun hm => hnotseen ((hseen op.1).mpr hm)
      have haccEq : accruedSize (op :: rest) seen =
          if op.1 = [] ∨ op.1 ∈ seen then accruedSize rest seen
          else kvSize op.1 op.2.1 + accruedSize rest (op.1 :: seen) := rfl
      have hacc : accruedSize (op :: rest) seen =
          kvSize op.1 op.2.1 + accruedSize rest (op.1 :: seen) := by
        rw [haccEq, if_neg (by push_neg; exact ⟨hnilk, hnotseen⟩)]
      have hfold : (op :: rest).foldl (fun s op => s.put op.1 op.2.1 op.2.2) s =
          rest.foldl (fun s op => s.put op.1 op.2.1 op.2.2)
            (s.put op.1 op.2.1 op.2.2) := rfl
      obtain ⟨pre, suf, _, _, _, _, _, _, hsize⟩ :=
        skiplist_put_of_not_mem h hnilk hnotmem op.2.1 op.2.2
      have hiff : ∀ x : Bytes, x ∈ op.1 :: seen ↔
          x ∈ baseKeys (s.put op.1 op.2.1 op.2.2) := by
        intro x
        rw [mem_baseKeys_put h hnilk op.2.1 op.2.2 x, List.mem_cons]
        exact or_congr Iff.rfl (hseen x)
      rw [hfold, hacc,
        ih (s.put op.1 op.2.1 op.2.2) (op.1 :: seen) (SLWF_put h _ _ _)
          (not_nil_baseKeys_put h hn op.2.1 op.2.2) hiff, hsize]
      omega

/-- Reading back the file just written. -/
theorem fsRead_write_self (fs : FS) (name contents : Bytes) :
    fsRead (fsWrite fs name contents) name = some contents := by
  simp [fsRead, fsWrite, List.find?_cons]

/-- C6 (amended): for every nonempty key k, SkipList lookup on a list
into which k was never inserted returns {found: false, value: empty},
and lookup of a present key returns {found: true} with the value of its
most recent put.  (The empty key is excluded: its lookup hits the
negative-infinity sentinel, whose default KeyValuePair key compares
equal to it; see the counterexample.) -/
theorem claim_C6_skiplist_lookup (ops : List PutEvent) (k : Bytes) (hk : k ≠ []) :
    ((∀ op ∈ ops, op.1 ≠ k) → (buildSkip ops).get k = (false, [])) ∧
    (∀ v, lastPutValue ops k = some v → (buildSkip ops).get k = (true, v)) := by
  obtain ⟨hwf, _⟩ := buildSkip_wf ops
  constructor
  · intro hnone
    have hfilter : ops.filter (fun op => decide (op.1 = k)) = [] :=
      List.filter_eq_nil_iff.mpr (by
        intro op hop
        simp only [decide_eq_true_eq]
        exact hnone op hop)
    have hlast : lastPutValue ops k = none := by
      unfold lastPutValue
      rw [hfilter]
      rfl
    have hnot : k ∉ baseKeys (buildSkip ops) := by
      have hlook := buildSkip_lookup ops k hk
      rw [hlast] at hlook
      exact (mapLookup_eq_none_iff (buildSkip ops).base k).mp hlook
    exact skiplist_get_of_not_mem hwf hk hnot
  · intro v hv
    have hlook : mapLookup (buildSkip ops).base k = some v := by
      rw [buildSkip_lookup ops k hk, hv]
    have hmem : k ∈ baseKeys (buildSkip ops) := by
      by_contra hcon
      rw [(mapLookup_eq_none_iff (buildSkip ops).base k).mpr hcon] at hlook
      exact Option.noConfusion hlook
    rw [skiplist_get_of_mem hwf hmem, baseLookup_of_mapLookup hlook]

/-- Witness for C6 at a concrete put sequence. -/
theorem claim_C6_skiplist_lookup_witness :
    (buildSkip [([107], [97], [true])]).get [108] = (false, []) ∧
    (buildSkip [([107], [97], [true])]).get [107] = (true, [97]) := by
  constructor
  · exact (claim_C6_skiplist_lookup [([107], [97], [true])] [108] (by decide)).1 (by decide)
  · exact (claim_C6_skiplist_lookup [([107], [97], [true])] [107] (by decide)).2 [97]
      (by decide)

/-- C6 counterexample: lookup of the never-inserted empty key on a fresh
skip list returns found = true (the sentinel's default key compares
equal), not {false, empty} as the claim states for every key. -/
theorem claim_C6_counterexample :
    (buildSkip []).get [] ≠ (false, []) ∧ (buildSkip []).get [] = (true, []) := by
  decide

/-- C7: after any sequence of puts the base-level keys are strictly
ascending and pairwise distinct, and createFromMemTable writes the data
file as the concatenation of exactly those records in that order, hence
in strictly ascending key order with at most one record per key. -/
theorem claim_C7_sorted_data (ops : List PutEvent) (stem : Bytes) (fs : FS) :
    List.Sorted (· < ·) (baseKeys (buildSkip ops)) ∧
    List.Pairwise (· ≠ ·) (baseKeys (buildSkip ops)) ∧
    fsRead (SS_Table.createFromMemTable fs stem ⟨buildSkip ops⟩).1
        (stem ++ DATA_EXTENSION) =
      some (encodeData (buildSkip ops).base) := by
  have hs := (buildSkip_wf ops).1.1
  refine ⟨hs, List.Pairwise.imp (fun h => ne_of_lt h) hs, ?_⟩
  exact fsRead_write_self _ _ _

/-- C9 (amended): the tracked byte-size counter equals the byte size
accrued over the first-insert events of distinct nonempty keys (a put of
the empty key hits the sentinel and accrues nothing); a put of an
already-present key, including tombstoning, leaves the counter
unchanged; and the counter never decreases. -/
theorem claim_C9_size_accounting (ops : List PutEvent) (s : SkipList) (k v : Bytes)
    (f : List Bool) :
    (buildSkip ops).totalSize = accruedSize ops [] ∧
    (SLWF s → k ∈ baseKeys s → (s.put k v f).totalSize = s.totalSize) ∧
    s.totalSize ≤ (s.put k v f).totalSize := by
  refine ⟨?_, fun h hk => totalSize_put_of_mem h hk v f, totalSize_put_mono s k v f⟩
  have hiff : ∀ x : Bytes, x ∈ ([] : List Bytes) ↔ x ∈ baseKeys SkipList.empty := by
    intro x
    simp [baseKeys, SkipList.empty]
  have := foldPut_size ops SkipList.empty [] SLWF_empty
    (by intro h; exact absurd h (List.not_mem_nil _)) hiff
  unfold buildSkip
  simpa [SkipList.empty] using this

/-- Witness for C9 at a concrete state: an overwrite and a tombstoning
of a present key leave the counter unchanged. -/
theorem claim_C9_size_accounting_witness :
    (buildSkip [([107], [97], [true])]).totalSize =
      accruedSize [([107], [97], [true])] [] ∧
    ((buildSkip [([107], [97], [true])]).put [107] TOMBSTONE []).totalSize =
      (buildSkip [([107], [97], [true])]).totalSize := by
  constructor
  · exact (claim_C9_size_accounting [([107], [97], [true])] SkipList.empty [] [] []).1
  · exact (claim_C9_size_accounting [([107], [97], [true])]
      (buildSkip [([107], [97], [true])]) [107] TOMBSTONE []).2.1
      (buildSkip_wf [([107], [97], [true])]).1 (by decide)

/-- C9 counterexample: the first put of the (never previously present)
empty key accrues nothing: the counter stays 0 instead of growing by the
entry's size. -/
theorem claim_C9_counterexample :
    (buildSkip [([], [97], [])]).totalSize = 0 ∧
    kvSize [] [97] ≠ 0 := by
  decide

/-- The immutable-memtable loop implements find-first-definitive over
the per-layer answers. -/
theorem getFromMemTables_eq (key : Bytes) (L : List MemTable) :
    getFromMemTables key L = (L.map (fun m => m.get key)).find? definitiveAnswer := by
  induction L with
  | nil => rfl
  | cons m rest ih =>
    by_cases h1 : (m.get key).1
    · have hd : definitiveAnswer (m.get key) = true := by
        unfold definitiveAnswer
        rw [h1]
        rfl
      simp [getFromMemTables, List.find?_cons, h1, hd]
    · have h1' : (m.get key).1 = false := by rwa [Bool.not_eq_true] at h1
      by_cases h2 : (m.get key).2 = TOMBSTONE
      · have hd : definitiveAnswer (m.get key) = true := by
          unfold definitiveAnswer
          simp [h2]
        have heta : ((false : Bool), TOMBSTONE) = m.get key := by
          rw [← h2, ← h1']
        simp only [getFromMemTables, List.map_cons, List.find?_cons, hd]
        simp [h1', h2, heta]
      · have hd : definitiveAnswer (m.get key) = false := by
          unfold definitiveAnswer
          simp [h1', h2]
        simp only [getFromMemTables, List.map_cons, List.find?_cons, hd]
        simp [h1', h2, ih]

/-- The SSTable loop implements find-first-definitive over the per-layer
answers. -/
theorem getFromSSTables_eq (fs : FS) (key : Bytes) (L : List SS_Table) :
    getFromSSTables fs key L =
      (L.map (fun t => t.getValue fs key)).find? definitiveAnswer := by
  induction L with
  | nil => rfl
  | cons t rest ih =>
    by_cases h1 : (t.getValue fs key).1
    · have hd : definitiveAnswer (t.getValue fs key) = true := by
        unfold definitiveAnswer
        rw [h1]
        rfl
      simp [getFromSSTables, List.find?_cons, h1, hd]
    · have h1' : (t.getValue fs key).1 = false := by rwa [Bool.not_eq_true] at h1
      by_cases h2 : (t.getValue fs key).2 = TOMBSTONE
      · have hd : definitiveAnswer (t.getValue fs key) = true := by
          unfold definitiveAnswer
          simp [h2]
        have heta : ((false : Bool), TOMBSTONE) = t.getValue fs key := by
          rw [← h2, ← h1']
        simp only [getFromSSTables, List.map_cons, List.find?_cons, hd]
        simp [h1', h2, heta]
      · have hd : definitiveAnswer (t.getValue fs key) = false := by
          unfold definitiveAnswer
          simp [h1', h2]
        simp only [getFromSSTables, List.map_cons, List.find?_cons, hd]
        simp [h1', h2, ih]

/-- C2: LSMTree::get consults the active memtable, then the immutable
memtables newest first, then the SSTables newest first, and returns the
first definitive answer (found value, or tombstone reported as
{false, tombstone}), falling back to {false, empty} when no layer has
the key. -/
theorem claim_C2_resolution_order (s : LSMTree) (key : Bytes) :
    s.get key = resolveLayers (layerAnswers s key) := by
  unfold LSMTree.get resolveLayers layerAnswers
  set r0 := s.activeMemTable.get key with hr0
  by_cases h1 : r0.1
  · have hd : definitiveAnswer r0 = true := by
      unfold definitiveAnswer
      rw [h1]
      rfl
    simp [List.find?_cons, hd, h1]
  · have h1' : r0.1 = false := by rwa [Bool.not_eq_true] at h1
    by_cases h2 : r0.2 = TOMBSTONE
    · have hd : definitiveAnswer r0 = true := by
        unfold definitiveAnswer
        simp [h2]
      simp [List.find?_cons, hd, h1', h2]
    · have hd : definitiveAnswer r0 = false := by
        unfold definitiveAnswer
        simp [h1', h2]
      simp only [List.find?_cons, hd, h1', h2, Bool.false_eq_true, if_false,
        if_neg (fun h => h2 h)]
      rw [List.find?_append, getFromMemTables_eq, getFromSSTables_eq]
      cases hmem : (s.memTables.reverse.map (fun m => m.get key)).find? definitiveAnswer with
      | some r =>
        have hdr := List.find?_some hmem
        unfold definitiveAnswer at hdr
        simp only [Option.or]
        by_cases hr1 : r.1
        · simp [hr1]
        · have hr1' : r.1 = false := by rwa [Bool.not_eq_true] at hr1
          have hrt : r.2 = TOMBSTONE := by
            rw [hr1'] at hdr
            simpa using hdr
          have heta : ((false : Bool), r.2) = r := by rw [← hr1']
          simp [hr1', heta]
      | none =>
        simp only [Option.or]
        cases hss : (s.sstables.reverse.map (fun t => t.getValue s.fs key)).find?
            definitiveAnswer with
        | some r =>
          have hdr := List.find?_some hss
          unfold definitiveAnswer at hdr
          by_cases hr1 : r.1
          · simp [hr1]
          · have hr1' : r.1 = false := by rwa [Bool.not_eq_true] at hr1
            have hrt : r.2 = TOMBSTONE := by
              rw [hr1'] at hdr
              simpa using hdr
            have heta : ((false : Bool), r.2) = r := by rw [← hr1']
            simp [hr1', heta]
        | none => rfl

/-- After a put, the skip list answers with the stored value (nonempty
keys). -/
theorem skiplist_put_get_self {s : SkipList} {k : Bytes} (h : SLWF s) (hk : k ≠ [])
    (v : Bytes) (f : List Bool) :
    (s.put k v f).get k = (true, v) := by
  have hwf' := SLWF_put h k v f
  have hlook : mapLookup (s.put k v f).base k = some v := mapLookup_put_self h hk v f
  have hmem : k ∈ baseKeys (s.put k v f) := by
    by_contra hcon
    rw [(mapLookup_eq_none_iff (s.put k v f).base k).mpr hcon] at hlook
    exact Option.noConfusion hlook
  rw [skiplist_get_of_mem hwf' hmem, baseLookup_of_mapLookup hlook]

/-- A fresh memtable answers {false, empty} for a nonempty key. -/
theorem memtable_empty_get {k : Bytes} (hk : k ≠ []) :
    MemTable.empty.get k = (false, []) := by
  have hsearch : SkipList.empty.search k = none := rfl
  have h1 : SkipList.empty.get k = (false, []) := by
    unfold SkipList.get
    rw [hsearch]
    exact if_neg (fun heq => hk heq.symm)
  unfold MemTable.get MemTable.empty
  rw [h1]
  simp

/-- After MemTable::put of a non-tombstone value under a nonempty key,
MemTable::get reports it found. -/
theorem memtable_put_get_self {m : MemTable} {k v : Bytes} (h : SLWF m.list)
    (hk : k ≠ []) (hv : v ≠ TOMBSTONE) (f : List Bool) :
    (m.put k v f).get k = (true, v) := by
  unfold MemTable.get MemTable.put
  rw [skiplist_put_get_self h hk v f]
  simp [hv]

/-- After MemTable::put of the tombstone under a nonempty key,
MemTable::get reports the deletion. -/
theorem memtable_put_get_tombstone {m : MemTable} {k : Bytes} (h : SLWF m.list)
    (hk : k ≠ []) (f : List Bool) :
    (m.put k TOMBSTONE f).get k = (false, TOMBSTONE) := by
  unfold MemTable.get MemTable.put
  rw [skiplist_put_get_self h hk TOMBSTONE f]
  simp

/-- C3 (amended): for every nonempty key and every value other than the
tombstone sentinel, get immediately after put returns the value just
written, whatever the thresholds and whether or not the put rotated the
memtable.  (Counterexamples force both exclusions: a caller value equal
to the tombstone is reported as Deleted, and the empty key is served
from the sentinel of whatever memtable is active.) -/
theorem claim_C3_read_after_write (cfg : Config) (s : LSMTree) (key value : Bytes)
    (flips : List Bool) (hwf : SLWF s.activeMemTable.list) (hk : key ≠ [])
    (hv : value ≠ TOMBSTONE) :
    (LSMTree.put cfg s key value flips).get key = (true, value) := by
  unfold LSMTree.put
  set m' := s.activeMemTable.put key value flips with hm'
  have hmget : m'.get key = (true, value) := memtable_put_get_self hwf hk hv flips
  by_cases hrot : cfg.maxMemtableSize ≤ m'.getSize
  · rw [if_pos hrot]
    unfold LSMTree.rotate_memtable LSMTree.get
    simp only
    rw [memtable_empty_get hk]
    have hrev : (s.memTables ++ [m']).reverse = m' :: s.memTables.reverse := by
      simp
    rw [hrev]
    have hfront : getFromMemTables key (m' :: s.memTables.reverse) =
        some (true, value) := by
      unfold getFromMemTables
      rw [hmget]
      simp
    rw [hfront]
    simp [TOMBSTONE]
  · rw [if_neg hrot]
    unfold LSMTree.get
    simp only
    rw [hmget]
    simp

/-- Witness for C3 at a concrete put on a fresh tree under the source's
constants. -/
theorem claim_C3_read_after_write_witness :
    (LSMTree.put defaultConfig LSMTree.initial [107] [97] [true]).get [107] =
      (true, [97]) :=
  claim_C3_read_after_write defaultConfig LSMTree.initial [107] [97] [true]
    SLWF_empty (by decide) (by decide)

/-- C3 counterexample: putting the 4-byte tombstone sentinel as an
ordinary value makes the immediately following get report Deleted
({false, tombstone}), not Found. -/
theorem claim_C3_counterexample :
    (LSMTree.put defaultConfig LSMTree.initial [107] TOMBSTONE []).get [107] ≠
      (true, TOMBSTONE) ∧
    (LSMTree.put defaultConfig LSMTree.initial [107] TOMBSTONE []).get [107] =
      (false, TOMBSTONE) := by
  decide

/-- C10 (amended): LSMTree::remove(k) equals LSMTree::put(k, tombstone)
whenever the insertion leaves the active memtable below the rotation
threshold — remove skips the size check that put performs, so the two
differ exactly when that check would rotate — and for every nonempty
key, put(k, tombstone) followed by get(k) reports Deleted
({false, tombstone}), never Found, as does remove(k). -/
theorem claim_C10_remove_eq_put_tombstone (cfg : Config) (s : LSMTree) (key : Bytes)
    (flips : List Bool) :
    ((s.activeMemTable.put key TOMBSTONE flips).getSize < cfg.maxMemtableSize →
      LSMTree.put cfg s key TOMBSTONE flips = s.remove key flips) ∧
    (SLWF s.activeMemTable.list → key ≠ [] →
      (LSMTree.put cfg s key TOMBSTONE flips).get key = (false, TOMBSTONE) ∧
      (s.remove key flips).get key = (false, TOMBSTONE)) := by
  constructor
  · intro hlt
    unfold LSMTree.put LSMTree.remove
    rw [if_neg (not_le.mpr hlt)]
  · intro hwf hk
    have hmget := memtable_put_get_tombstone hwf hk flips
    refine ⟨?_, ?_⟩
    · unfold LSMTree.put
      by_cases hrot :
          cfg.maxMemtableSize ≤ (s.activeMemTable.put key TOMBSTONE flips).getSize
      · rw [if_pos hrot]
        unfold LSMTree.rotate_memtable LSMTree.get
        simp only
        rw [memtable_empty_get hk]
        have hrev : (s.memTables ++ [s.activeMemTable.put key TOMBSTONE flips]).reverse =
            s.activeMemTable.put key TOMBSTONE flips :: s.memTables.reverse := by
          simp
        rw [hrev]
        have hfront : getFromMemTables key
            (s.activeMemTable.put key TOMBSTONE flips :: s.memTables.reverse) =
            some (false, TOMBSTONE) := by
          unfold getFromMemTables
          rw [hmget]
          simp
        rw [hfront]
        simp [TOMBSTONE]
      · rw [if_neg hrot]
        unfold LSMTree.get
        simp only
        rw [hmget]
        simp
    · unfold LSMTree.remove LSMTree.get
      simp only
      rw [hmget]
      simp

/-- Witness for C10 at a concrete small state under the source's
constants. -/
theorem claim_C10_remove_eq_put_tombstone_witness :
    LSMTree.put defaultConfig LSMTree.initial [107] TOMBSTONE [] =
      LSMTree.initial.remove [107] [] ∧
    (LSMTree.put defaultConfig LSMTree.initial [107] TOMBSTONE []).get [107] =
      (false, TOMBSTONE) := by
  refine ⟨?_, ?_⟩
  · exact (claim_C10_remove_eq_put_tombstone defaultConfig LSMTree.initial [107] []).1
      (by decide)
  · exact ((claim_C10_remove_eq_put_tombstone defaultConfig LSMTree.initial
      [107] []).2 SLWF_empty (by decide)).1

/-- A put whose inserted pair carries the active memtable to or past the
32 MiB rotation threshold rotates, while the remove path never checks:
the two states differ in the immutable queue. -/
theorem put_remove_divergence (v : Bytes) (hlen : v.length = 33554363) :
    LSMTree.put defaultConfig
        (LSMTree.put defaultConfig LSMTree.initial [107] v []) [120] TOMBSTONE [] ≠
      (LSMTree.put defaultConfig LSMTree.initial [107] v []).remove [120] [] := by
  have hkv1 : kvSize [107] v = 33554428 := by
    unfold kvSize SIZEOF_STD_STRING
    rw [hlen]
    simp
  have hsl1 : SkipList.empty.put [107] v [] =
      ⟨[], [([107], v)], [], kvSize [107] v⟩ := by
    unfold SkipList.put
    rw [show SkipList.empty.search [107] = none from rfl]
    simp [nodeKey, insertUpperLevels, countLeadingTrue, SkipList.empty, MAX_LEVEL]
  have hsize1 : ¬ (defaultConfig.maxMemtableSize ≤ kvSize [107] v) := by
    rw [hkv1]
    decide
  have hS0 : LSMTree.put defaultConfig LSMTree.initial [107] v [] =
      ⟨⟨⟨[], [([107], v)], [], kvSize [107] v⟩⟩, [], [], [], 0⟩ := by
    unfold LSMTree.put LSMTree.initial MemTable.put MemTable.getSize SkipList.getSize
    rw [show MemTable.empty.list = SkipList.empty from rfl]
    simp only [hsl1]
    rw [if_neg hsize1]
  set sl1 : SkipList := ⟨[], [([107], v)], [], kvSize [107] v⟩ with hsl1def
  have hsearch2 : sl1.search [120] = some [107] := by
    rw [hsl1def]
    rfl
  have hsl2 : sl1.put [120] TOMBSTONE [] =
      ⟨[], [([107], v), ([120], TOMBSTONE)], [],
        kvSize [107] v + kvSize [120] TOMBSTONE⟩ := by
    unfold SkipList.put
    rw [hsearch2]
    simp [nodeKey, spliceAfter, insertUpperLevels, countLeadingTrue, MAX_LEVEL, hsl1def]
  have hsize2 : defaultConfig.maxMemtableSize ≤
      kvSize [107] v + kvSize [120] TOMBSTONE := by
    rw [hkv1]
    decide
  rw [hS0]
  intro hcontra
  have hlens := congrArg List.length (congrArg LSMTree.memTables hcontra)
  have h1 : (LSMTree.put defaultConfig (⟨⟨sl1⟩, [], [], [], 0⟩ : LSMTree)
      [120] TOMBSTONE []).memTables.length = 1 := by
    unfold LSMTree.put MemTable.put MemTable.getSize SkipList.getSize
    rw [show (⟨sl1⟩ : MemTable).list = sl1 from rfl]
    simp only [hsl2]
    rw [if_pos hsize2]
    rfl
  have h2 : ((⟨⟨sl1⟩, [], [], [], 0⟩ : LSMTree).remove [120] []).memTables.length = 0 := rfl
  rw [h1, h2] at hlens
  exact absurd hlens one_ne_zero

/-- C10 counterexample: with the source's 32 MiB threshold, after a put
of a 33554363-byte value, put(k, tombstone) rotates the active memtable
but remove(k) does not — the two engine states are not identical. -/
theorem claim_C10_counterexample :
    LSMTree.put defaultConfig
        (LSMTree.put defaultConfig LSMTree.initial [107] (List.replicate 33554363 97) [])
        [120] TOMBSTONE [] ≠
      (LSMTree.put defaultConfig LSMTree.initial [107]
        (List.replicate 33554363 97) []).remove [120] [] :=
  put_remove_divergence (List.replicate 33554363 97) (List.length_replicate 33554363 97)

/-- C1: evaluation of the code at a failing input for the compaction
part of the claim.  With the SSTable-count threshold at 2 and a rotation
threshold of 1 byte, the trace put(k, A); flush; put(k, B); flush leaves
two SSTables and get(k) = Found(B), the newest value.  One compaction
pass merges the batch oldest-first with first write wins, so the merged
(and newest) SSTable keeps the oldest value: afterwards
get(k) = Found(A).  A compaction pass therefore changes the value
returned by get(k), contradicting newest-wins and compaction
idempotence; the same first-write-wins-over-oldest merge runs at the
source's threshold of 100. -/
theorem claim_C1_compaction_changes_get :
    (buildLSM ⟨1, 2⟩ [LSMOp.putOp [107] [65] [], LSMOp.flushOp,
        LSMOp.putOp [107] [66] [], LSMOp.flushOp]).get [107] = (true, [66]) ∧
    (LSMTree.perform_compaction ⟨1, 2⟩
        (buildLSM ⟨1, 2⟩ [LSMOp.putOp [107] [65] [], LSMOp.flushOp,
          LSMOp.putOp [107] [66] [], LSMOp.flushOp])).get [107] = (true, [65]) ∧
    (LSMTree.perform_compaction ⟨1, 2⟩
        (buildLSM ⟨1, 2⟩ [LSMOp.putOp [107] [65] [], LSMOp.flushOp,
          LSMOp.putOp [107] [66] [], LSMOp.flushOp])).sstables.length = 1 := by
  decide

/-- Membership under the sort's insertion step. -/
theorem mem_insertByName {t x : SS_Table} (l : List SS_Table) :
    x ∈ insertByName t l ↔ x = t ∨ x ∈ l := by
  induction l with
  | nil => simp [insertByName]
  | cons a rest ih =>
    by_cases hc : t.index_filename < a.index_filename
    · simp only [insertByName, if_pos hc, List.mem_cons]
    · simp only [insertByName, if_neg hc, List.mem_cons, ih]
      tauto

/-- Sorting the handle list does not change its members. -/
theorem mem_sortByIndexName {x : SS_Table} (l : List SS_Table) :
    x ∈ sortByIndexName l ↔ x ∈ l := by
  induction l with
  | nil => simp [sortByIndexName]
  | cons a rest ih =>
    have : sortByIndexName (a :: rest) = insertByName a (sortByIndexName rest) := rfl
    rw [this, mem_insertByName, ih, List.mem_cons]

/-- Every handle produced by the startup loader's loop has a readable
index file. -/
theorem load_fold_readable (fs : FS) :
    ∀ (listing : List Bytes) (acc : List SS_Table),
    (∀ h ∈ acc, fsRead fs h.index_filename ≠ none) →
    ∀ h ∈ listing.foldl (fun acc file =>
      match findSub INDEX_EXTENSION file with
      | none => acc
      | some i =>
        let data_file := file.take i
        let t := SS_Table.loadIndex fs file (data_file ++ DATA_EXTENSION)
        if t.indexLoaded then acc ++ [t] else acc) acc,
      fsRead fs h.index_filename ≠ none := by
  intro listing
  induction listing with
  | nil => exact fun acc hacc h hmem => hacc h hmem
  | cons file rest ih =>
    intro acc hacc h hmem
    refine ih _ ?_ h hmem
    intro h' hmem'
    cases hfind : findSub INDEX_EXTENSION file with
    | none =>
      simp only [List.foldl_cons, hfind] at hmem' ⊢
      exact hacc h' hmem'
    | some i =>
      cases hread : fsRead fs file with
      | none =>
        have hload : SS_Table.loadIndex fs file (file.take i ++ DATA_EXTENSION) =
            ⟨file, file.take i ++ DATA_EXTENSION, [], false⟩ := by
          unfold SS_Table.loadIndex
          rw [hread]
        simp only [hfind, hload] at hmem'
        exact hacc h' (by simpa using hmem')
      | some bs =>
        have hload : SS_Table.loadIndex fs file (file.take i ++ DATA_EXTENSION) =
            ⟨file, file.take i ++ DATA_EXTENSION, parseIndex bs, true⟩ := by
          unfold SS_Table.loadIndex
          rw [hread]
        simp only [hfind, hload, if_pos] at hmem'
        have hsplit : h' ∈ acc ∨
            h' = ⟨file, file.take i ++ DATA_EXTENSION, parseIndex bs, true⟩ := by
          simpa using hmem'
        rcases hsplit with hmem'' | hmem''
        · exact hacc h' hmem''
        · rw [hmem'']
          show fsRead fs file ≠ none
          rw [hread]
          simp

/-- C8 (amended): the startup loader skips an SSTable exactly when its
index file cannot be opened; a missing data file does not cause a skip —
the handle is still appended — but every lookup through such a handle
returns {false, empty} (treated as key-not-in-this-SSTable). -/
theorem claim_C8_load_skips (listing : List Bytes) (fs : FS) (t : SS_Table)
    (k : Bytes) :
    (∀ h ∈ LSMTree.load_existing_sstables listing fs,
      fsRead fs h.index_filename ≠ none) ∧
    (fsRead fs t.data_filename = none → t.getValue fs k = (false, [])) := by
  constructor
  · intro h hmem
    unfold LSMTree.load_existing_sstables at hmem
    rw [mem_sortByIndexName] at hmem
    exact load_fold_readable fs listing []
      (fun h' hmem' => absurd hmem' (List.not_mem_nil h')) h hmem
  · intro hdata
    unfold SS_Table.getValue
    by_cases hl : t.indexLoaded
    · simp only [hl]
      cases hoff : t.findStartOffset k with
      | none => simp
      | some off =>
        rw [hdata]
        simp
    · simp [hl]

/-- Witness for C8: an unopenable index file is skipped, and a handle
whose data file is missing answers absent. -/
theorem claim_C8_load_skips_witness :
    (∀ h ∈ LSMTree.load_existing_sstables
        [DATA_DIR ++ SSTABLE_PREFIX ++ natDigits 1 ++ INDEX_EXTENSION] [],
      fsRead [] h.index_filename ≠ none) ∧
    (⟨[115, 46, 105], [115, 46, 100], [([107], 0)], true⟩ : SS_Table).getValue
        [([115, 46, 105], encodeIndex [([107], [97])])] [107] = (false, []) := by
  constructor
  · exact (claim_C8_load_skips
      [DATA_DIR ++ SSTABLE_PREFIX ++ natDigits 1 ++ INDEX_EXTENSION] []
      ⟨[], [], [], false⟩ []).1
  · exact (claim_C8_load_skips [] [([115, 46, 105], encodeIndex [([107], [97])])]
      ⟨[115, 46, 105], [115, 46, 100], [([107], 0)], true⟩ [107]).2 (by decide)

/-- C8 counterexample: a directory with a single well-formed index file
and no matching data file.  The loader appends the handle (the list has
length 1) instead of skipping the SSTable as the claim states. -/
theorem claim_C8_counterexample :
    (LSMTree.load_existing_sstables
      [DATA_DIR ++ SSTABLE_PREFIX ++ natDigits 1 ++ INDEX_EXTENSION]
      [(DATA_DIR ++ SSTABLE_PREFIX ++ natDigits 1 ++ INDEX_EXTENSION,
        encodeIndex [([107], [97])])]).length = 1 := by
  decide

/-- Keys present after a guarded map insertion. -/
theorem mem_keys_insertIfAbsent {k v x : Bytes} (m : List (Bytes × Bytes)) :
    x ∈ (mapInsertIfAbsent k v m).map Prod.fst ↔ x = k ∨ x ∈ m.map Prod.fst := by
  induction m with
  | nil => simp [mapInsertIfAbsent]
  | cons kv0 rest ih =>
    by_cases h1 : kv0.1 = k
    · simp only [mapInsertIfAbsent, if_pos h1, List.map_cons, List.mem_cons]
      constructor
      · rintro (h | h)
        · exact Or.inr (Or.inl h)
        · exact Or.inr (Or.inr h)
      · rintro (rfl | h)
        · exact Or.inl h1.symm
        · exact h
    · by_cases h2 : kv0.1 < k
      · simp only [mapInsertIfAbsent, if_neg h1, if_pos h2, List.map_cons, List.mem_cons, ih]
        tauto
      · simp only [mapInsertIfAbsent, if_neg h1, if_neg h2, List.map_cons, List.mem_cons]

/-- The guarded insertion keeps the map sorted by key. -/
theorem sorted_insertIfAbsent {k v : Bytes} {m : List (Bytes × Bytes)}
    (hs : List.Sorted (· < ·) (m.map Prod.fst)) :
    List.Sorted (· < ·) ((mapInsertIfAbsent k v m).map Prod.fst) := by
  induction m with
  | nil => simp [mapInsertIfAbsent]
  | cons kv0 rest ih =>
    simp only [List.map_cons] at hs
    obtain ⟨hhead, hrest⟩ := List.sorted_cons.mp hs
    by_cases h1 : kv0.1 = k
    · simpa [mapInsertIfAbsent, if_pos h1] using hs
    · by_cases h2 : kv0.1 < k
      · simp only [mapInsertIfAbsent, if_neg h1, if_pos h2, List.map_cons]
        refine List.sorted_cons.mpr ⟨?_, ih hrest⟩
        intro b hb
        rcases (mem_keys_insertIfAbsent rest).mp hb with rfl | hb
        · exact h2
        · exact hhead b hb
      · have hk : k < kv0.1 := by
          rcases lt_trichotomy kv0.1 k with h | h | h
          · exact absurd h h2
          · exact absurd h h1
          · exact h
        simp only [mapInsertIfAbsent, if_neg h1, if_neg h2, List.map_cons]
        refine List.sorted_cons.mpr ⟨?_, hs⟩
        intro b hb
        rcases List.mem_cons.mp hb with rfl | hb
        · exact hk
        · exact lt_trans hk (hhead b hb)

/-- Looking up the key just offered to the guarded insertion on a sorted
map: an existing binding wins, otherwise the new value is bound. -/
theorem mapLookup_insertIfAbsent_self {k v : Bytes} {m : List (Bytes × Bytes)}
    (hs : List.Sorted (· < ·) (m.map Prod.fst)) :
    mapLookup (mapInsertIfAbsent k v m) k = some ((mapLookup m k).getD v) := by
  induction m with
  | nil => simp [mapInsertIfAbsent, mapLookup, List.find?_cons]
  | cons kv0 rest ih =>
    simp only [List.map_cons] at hs
    obtain ⟨hhead, hrest⟩ := List.sorted_cons.mp hs
    by_cases h1 : kv0.1 = k
    · simp [mapInsertIfAbsent, if_pos h1, mapLookup, List.find?_cons, h1]
    · by_cases h2 : kv0.1 < k
      · simp only [mapInsertIfAbsent, if_neg h1, if_pos h2]
        unfold mapLookup at ih ⊢
        simp [List.find?_cons, h1, ih hrest]
      · have hnone : (kv0 :: rest).find? (fun kv => decide (kv.1 = k)) = none := by
          rw [List.find?_eq_none]
          intro x hx
          simp only [decide_eq_true_eq]
          rcases List.mem_cons.mp hx with rfl | hx
          · exact h1
          · intro heq
            have hx1 : x.1 ∈ rest.map Prod.fst := List.mem_map_of_mem Prod.fst hx
            have : kv0.1 < k := heq ▸ hhead x.1 hx1
            exact h2 this
        simp only [mapInsertIfAbsent, if_neg h1, if_neg h2]
        unfold mapLookup
        rw [hnone, List.find?_cons]
        simp

/-- Looking up any other key is untouched by the guarded insertion. -/
theorem mapLookup_insertIfAbsent_other {k k' : Bytes} (v : Bytes)
    (m : List (Bytes × Bytes)) (hne : k' ≠ k) :
    mapLookup (mapInsertIfAbsent k v m) k' = mapLookup m k' := by
  have hkk' : k ≠ k' := Ne.symm hne
  induction m with
  | nil => simp [mapInsertIfAbsent, mapLookup, List.find?_cons, hkk']
  | cons kv0 rest ih =>
    by_cases h1 : kv0.1 = k
    · simp [mapInsertIfAbsent, if_pos h1]
    · by_cases h2 : kv0.1 < k
      · simp only [mapInsertIfAbsent, if_neg h1, if_pos h2]
        unfold mapLookup at ih ⊢
        by_cases h3 : kv0.1 = k'
        · simp [List.find?_cons, h3]
        · simp [List.find?_cons, h3, ih]
      · simp [mapInsertIfAbsent, if_neg h1, if_neg h2, mapLookup, List.find?_cons, hkk']

/-- Merging one record stream into a sorted map: an existing binding
wins, otherwise the first record of the stream carrying the key wins. -/
theorem mapLookup_mergeRecords (records : List (Bytes × Bytes)) :
    ∀ (m : List (Bytes × Bytes)), List.Sorted (· < ·) (m.map Prod.fst) →
    ∀ k, mapLookup (mergeRecords m records) k =
      (mapLookup m k).or (firstVal records k) := by
  induction records with
  | nil =>
    intro m _ k
    unfold mergeRecords firstVal
    simp only [List.foldl_nil, List.find?_nil, Option.map_none']
    cases mapLookup m k <;> rfl
  | cons kv rest ih =>
    intro m hm k
    have hstep : mergeRecords m (kv :: rest) =
        mergeRecords (mapInsertIfAbsent kv.1 kv.2 m) rest := rfl
    rw [hstep, ih _ (sorted_insertIfAbsent hm)]
    by_cases hk : k = kv.1
    · have hself := mapLookup_insertIfAbsent_self (k := kv.1) (v := kv.2) hm
      rw [hk, hself]
      have hfv : firstVal (kv :: rest) kv.1 = some kv.2 := by
        unfold firstVal
        simp [List.find?_cons]
      rw [hfv]
      cases hml : mapLookup m kv.1 <;> simp [Option.or]
    · rw [mapLookup_insertIfAbsent_other kv.2 m hk]
      have hfv : firstVal (kv :: rest) k = firstVal rest k := by
        unfold firstVal
        rw [List.find?_cons]
        have : (decide (kv.1 = k)) = false := by
          simp only [decide_eq_false_iff_not]
          exact fun h => hk h.symm
        rw [this]
      rw [hfv]

/-- Merged keys all come from the map or the record stream. -/
theorem mem_keys_mergeRecords {x : Bytes} (records : List (Bytes × Bytes)) :
    ∀ (m : List (Bytes × Bytes)),
    x ∈ (mergeRecords m records).map Prod.fst →
    x ∈ m.map Prod.fst ∨ x ∈ records.map Prod.fst := by
  induction records with
  | nil => exact fun m h => Or.inl h
  | cons kv rest ih =>
    intro m hmem
    have hstep : mergeRecords m (kv :: rest) =
        mergeRecords (mapInsertIfAbsent kv.1 kv.2 m) rest := rfl
    rw [hstep] at hmem
    rcases ih _ hmem with h | h
    · rcases (mem_keys_insertIfAbsent m).mp h with rfl | h
      · exact Or.inr (by simp)
      · exact Or.inl h
    · exact Or.inr (List.mem_cons_of_mem _ h)

/-- Merging a record stream keeps the map sorted. -/
theorem sorted_mergeRecords (records : List (Bytes × Bytes)) :
    ∀ (m : List (Bytes × Bytes)), List.Sorted (· < ·) (m.map Prod.fst) →
    List.Sorted (· < ·) ((mergeRecords m records).map Prod.fst) := by
  induction records with
  | nil => exact fun m h => h
  | cons kv rest ih =>
    intro m hm
    exact ih _ (sorted_insertIfAbsent hm)

/-- The batch fold of perform_compaction keeps the merged map sorted. -/
theorem sorted_mergeFold (tables : List SS_Table) (fs : FS) :
    ∀ (m : List (Bytes × Bytes)), List.Sorted (· < ·) (m.map Prod.fst) →
    List.Sorted (· < ·)
      ((tables.foldl (fun m t => mergeRecords m (readDataRecords fs t)) m).map
        Prod.fst) := by
  induction tables with
  | nil => exact fun m h => h
  | cons t rest ih =>
    intro m hm
    exact ih _ (sorted_mergeRecords _ m hm)

/-- Lookup through the whole batch fold of perform_compaction: the first
record carrying the key in the concatenated streams (batch files oldest
first, each read start to end) wins. -/
theorem mapLookup_mergeFold (fs : FS) (tables : List SS_Table) :
    ∀ (m : List (Bytes × Bytes)), List.Sorted (· < ·) (m.map Prod.fst) →
    ∀ k,
    mapLookup (tables.foldl (fun m t => mergeRecords m (readDataRecords fs t)) m) k =
      (mapLookup m k).or (firstVal (tables.flatMap (readDataRecords fs)) k) := by
  induction tables with
  | nil =>
    intro m _ k
    simp only [List.foldl_nil, List.flatMap_nil]
    unfold firstVal
    simp only [List.find?_nil, Option.map_none']
    cases mapLookup m k <;> rfl
  | cons t rest ih =>
    intro m hm k
    simp only [List.foldl_cons, List.flatMap_cons]
    rw [ih _ (sorted_mergeRecords _ m hm) k, mapLookup_mergeRecords _ m hm k]
    unfold firstVal
    rw [List.find?_append]
    cases h1 : mapLookup m k <;>
      cases h2 : (readDataRecords fs t).find? (fun kv => decide (kv.1 = k)) <;>
        simp [Option.or]

/-- Batch keys of the merged map come from the concatenated streams. -/
theorem mem_keys_mergeFold {x : Bytes} (fs : FS) (tables : List SS_Table) :
    ∀ (m : List (Bytes × Bytes)),
    x ∈ ((tables.foldl (fun m t => mergeRecords m (readDataRecords fs t)) m).map
      Prod.fst) →
    x ∈ m.map Prod.fst ∨ x ∈ (tables.flatMap (readDataRecords fs)).map Prod.fst := by
  induction tables with
  | nil => exact fun m h => Or.inl h
  | cons t rest ih =>
    intro m hmem
    simp only [List.foldl_cons] at hmem
    rcases ih _ hmem with h | h
    · rcases mem_keys_mergeRecords _ m h with h' | h'
      · exact Or.inl h'
      · exact Or.inr (by simp only [List.flatMap_cons, List.map_append,
          List.mem_append]; exact Or.inl h')
    · exact Or.inr (by simp only [List.flatMap_cons, List.map_append,
        List.mem_append]; exact Or.inr (by simpa using h))

/-- Putting a key greater than every present key appends the node at the
end of the base level. -/
theorem skiplist_put_append {s : SkipList} {k : Bytes} (h : SLWF s) (hne : k ≠ [])
    (hgt : ∀ x ∈ baseKeys s, x < k) (v : Bytes) (f : List Bool) :
    (s.put k v f).base = s.base ++ [(k, v)] := by
  have hnotmem : k ∉ baseKeys s := fun hmem => absurd (hgt k hmem) (lt_irrefl k)
  obtain ⟨pre, suf, hbase, hbase', _, hsuf, _, _, _⟩ :=
    skiplist_put_of_not_mem h hne hnotmem v f
  cases suf with
  | nil =>
    rw [hbase', hbase]
    simp
  | cons y t =>
    exfalso
    have hy : y.1 ∈ baseKeys s := by
      unfold baseKeys
      rw [hbase]
      simp
    exact absurd (hgt y.1 hy) (not_lt.mpr (le_of_lt (hsuf y.1 (by simp))))

/-- Folding ascending fresh puts onto a skip list appends exactly those
entries. -/
theorem foldPut_entries (L : List (Bytes × Bytes)) :
    ∀ (s : SkipList), SLWF s →
    List.Sorted (· < ·) (baseKeys s ++ L.map Prod.fst) →
    (∀ kv ∈ L, kv.1 ≠ []) →
    (L.foldl (fun m kv => m.put kv.1 kv.2 []) s).base = s.base ++ L := by
  induction L with
  | nil =>
    intro s _ _ _
    simp
  | cons kv rest ih =>
    intro s hwf hsorted hk
    have hgt : ∀ x ∈ baseKeys s, x < kv.1 := by
      intro x hx
      have := (List.pairwise_append.mp hsorted).2.2 x hx kv.1 (by simp)
      exact this
    have hne : kv.1 ≠ [] := hk kv (List.mem_cons_self kv rest)
    have happ := skiplist_put_append hwf hne hgt kv.2 []
    have hkeys' : baseKeys (s.put kv.1 kv.2 []) = baseKeys s ++ [kv.1] := by
      unfold baseKeys
      rw [happ]
      simp
    have hsorted' : List.Sorted (· < ·)
        (baseKeys (s.put kv.1 kv.2 []) ++ rest.map Prod.fst) := by
      rw [hkeys', List.append_assoc]
      simpa using hsorted
    have hfold : (kv :: rest).foldl (fun m kv => m.put kv.1 kv.2 []) s =
        rest.foldl (fun m kv => m.put kv.1 kv.2 []) (s.put kv.1 kv.2 []) := rfl
    rw [hfold, ih _ (SLWF_put hwf kv.1 kv.2 []) hsorted'
      (fun kv' h' => hk kv' (List.mem_cons_of_mem kv h')), happ]
    simp

/-- The memtable fold of perform_compaction is the skip-list fold. -/
theorem memFold_list (L : List (Bytes × Bytes)) :
    ∀ (s : SkipList),
    (L.foldl (fun m kv => m.put kv.1 kv.2 []) (⟨s⟩ : MemTable)).list =
      L.foldl (fun m kv => m.put kv.1 kv.2 []) s := by
  induction L with
  | nil => exact fun s => rfl
  | cons kv rest ih =>
    intro s
    exact ih (s.put kv.1 kv.2 [])

/-- A sorted list of nonempty-keyed entries, re-inserted into a fresh
memtable in order, comes back unchanged from in-order iteration. -/
theorem memFold_entries (L : List (Bytes × Bytes))
    (hs : List.Sorted (· < ·) (L.map Prod.fst)) (hk : ∀ kv ∈ L, kv.1 ≠ []) :
    (L.foldl (fun m kv => m.put kv.1 kv.2 []) MemTable.empty).entries = L := by
  unfold MemTable.entries
  have : MemTable.empty = (⟨SkipList.empty⟩ : MemTable) := rfl
  rw [this, memFold_list]
  have := foldPut_entries L SkipList.empty SLWF_empty (by
    have hbk : baseKeys SkipList.empty = [] := rfl
    rw [hbk]
    simpa using hs) hk
  rw [this]
  rfl

/-- Removing a differently named file does not affect reads. -/
theorem fsRead_remove_other {fs : FS} {n m : Bytes} (hne : n ≠ m) :
    fsRead (fsRemove fs m) n = fsRead fs n := by
  induction fs with
  | nil => rfl
  | cons f rest ih =>
    by_cases hfm : f.1 = m
    · have hfn : ¬ f.1 = n := fun h => hne (by rw [← h, hfm])
      unfold fsRemove fsRead at ih ⊢
      simp only [List.filter_cons]
      rw [show (decide ¬ f.1 = m) = false by simp [hfm]]
      simp only [Bool.false_eq_true, if_false, List.find?_cons]
      rw [show (decide (f.1 = n)) = false from decide_eq_false hfn]
      exact ih
    · unfold fsRemove fsRead at ih ⊢
      simp only [List.filter_cons]
      rw [show (decide ¬ f.1 = m) = true by simp [hfm]]
      simp only [if_true, List.find?_cons]
      by_cases hfn : f.1 = n
      · rw [show (decide (f.1 = n)) = true from decide_eq_true hfn]
      · rw [show (decide (f.1 = n)) = false from decide_eq_false hfn]
        exact ih

/-- The source-file deletions after a compaction do not affect the fresh
files, whose names differ from every deleted name. -/
theorem fsRead_removeFold (tables : List SS_Table) (n : Bytes)
    (h : ∀ t ∈ tables, t.index_filename ≠ n ∧ t.data_filename ≠ n) :
    ∀ fs : FS,
    fsRead (tables.foldl
      (fun fs t => fsRemove (fsRemove fs t.index_filename) t.data_filename) fs) n =
      fsRead fs n := by
  induction tables with
  | nil => exact fun fs => rfl
  | cons t rest ih =>
    intro fs
    have ht := h t (List.mem_cons_self t rest)
    have hstep : fsRead (fsRemove (fsRemove fs t.index_filename) t.data_filename) n =
        fsRead fs n := by
      rw [fsRead_remove_other (Ne.symm ht.2), fsRead_remove_other (Ne.symm ht.1)]
    simp only [List.foldl_cons]
    rw [ih (fun t' h' => h t' (List.mem_cons_of_mem t h')), hstep]

/-- C4: a compaction pass takes the oldest maxSSTableCount SSTables,
sorts them by index file name ascending, and builds the merged map so
that every key appearing in the batch is bound to the value of the first
record carrying it in the concatenated streams (batch files oldest
first, each data file read start to end — a key already present is never
overwritten); entries whose merged value equals the tombstone sentinel
are omitted, and the remaining entries are written to the new SSTable's
data file in ascending key order. -/
theorem claim_C4_compaction_merge (cfg : Config) (s : LSMTree)
    (hlen : cfg.maxSSTableCount ≤ s.sstables.length)
    (hkeys : ∀ kv ∈ (sortByIndexName (s.sstables.take cfg.maxSSTableCount)).flatMap
      (readDataRecords s.fs), kv.1 ≠ [])
    (hfresh : ∀ t ∈ sortByIndexName (s.sstables.take cfg.maxSSTableCount),
      t.index_filename ≠
        (DATA_DIR ++ SSTABLE_PREFIX ++ natDigits s.clock) ++ DATA_EXTENSION ∧
      t.data_filename ≠
        (DATA_DIR ++ SSTABLE_PREFIX ++ natDigits s.clock) ++ DATA_EXTENSION) :
    (∀ k, mapLookup ((sortByIndexName (s.sstables.take cfg.maxSSTableCount)).foldl
        (fun m t => mergeRecords m (readDataRecords s.fs t)) []) k =
      firstVal ((sortByIndexName (s.sstables.take cfg.maxSSTableCount)).flatMap
        (readDataRecords s.fs)) k) ∧
    List.Sorted (· < ·)
      ((((sortByIndexName (s.sstables.take cfg.maxSSTableCount)).foldl
        (fun m t => mergeRecords m (readDataRecords s.fs t)) []).filter
        (fun kv => ¬ kv.2 = TOMBSTONE)).map Prod.fst) ∧
    fsRead (LSMTree.perform_compaction cfg s).fs
        ((DATA_DIR ++ SSTABLE_PREFIX ++ natDigits s.clock) ++ DATA_EXTENSION) =
      some (encodeData (((sortByIndexName (s.sstables.take cfg.maxSSTableCount)).foldl
        (fun m t => mergeRecords m (readDataRecords s.fs t)) []).filter
        (fun kv => ¬ kv.2 = TOMBSTONE))) := by
  set batch := sortByIndexName (s.sstables.take cfg.maxSSTableCount) with hbatch
  set merged := batch.foldl (fun m t => mergeRecords m (readDataRecords s.fs t)) []
    with hmergeddef
  have hsorted : List.Sorted (· < ·) (merged.map Prod.fst) := by
    rw [hmergeddef]
    exact sorted_mergeFold batch s.fs [] (by simp)
  have hlookup : ∀ k, mapLookup merged k =
      firstVal (batch.flatMap (readDataRecords s.fs)) k := by
    intro k
    rw [hmergeddef, mapLookup_mergeFold s.fs batch [] (by simp) k]
    have hnil : mapLookup [] k = none := rfl
    rw [hnil]
    cases firstVal (batch.flatMap (readDataRecords s.fs)) k <;> simp [Option.or]
  have hfsorted : List.Sorted (· < ·)
      ((merged.filter (fun kv => ¬ kv.2 = TOMBSTONE)).map Prod.fst) := by
    refine List.Pairwise.sublist ?_ hsorted
    exact (List.filter_sublist merged).map Prod.fst
  refine ⟨hlookup, hfsorted, ?_⟩
  have hfkeys : ∀ kv ∈ merged.filter (fun kv => ¬ kv.2 = TOMBSTONE), kv.1 ≠ [] := by
    intro kv hkv
    have hkvm : kv ∈ merged := List.mem_of_mem_filter hkv
    have hkey : kv.1 ∈ merged.map Prod.fst := List.mem_map_of_mem Prod.fst hkvm
    rcases mem_keys_mergeFold s.fs batch [] (by rw [← hmergeddef]; exact hkey) with h | h
    · simp at h
    · obtain ⟨kv', hkv', heq⟩ := List.mem_map.mp h
      exact heq ▸ hkeys kv' hkv'
  have hentries : ((merged.filter (fun kv => ¬ kv.2 = TOMBSTONE)).foldl
      (fun m kv => m.put kv.1 kv.2 []) MemTable.empty).entries =
      merged.filter (fun kv => ¬ kv.2 = TOMBSTONE) :=
    memFold_entries _ hfsorted hfkeys
  unfold LSMTree.perform_compaction
  rw [if_neg (not_lt.mpr hlen)]
  show fsRead
      (batch.foldl (fun fs t => fsRemove (fsRemove fs t.index_filename) t.data_filename)
        (fsWrite
          (fsWrite s.fs
            ((DATA_DIR ++ SSTABLE_PREFIX ++ natDigits s.clock) ++ INDEX_EXTENSION)
            (encodeIndex (((merged.filter (fun kv => ¬ kv.2 = TOMBSTONE)).foldl
              (fun m kv => m.put kv.1 kv.2 []) MemTable.empty).entries)))
          ((DATA_DIR ++ SSTABLE_PREFIX ++ natDigits s.clock) ++ DATA_EXTENSION)
          (encodeData (((merged.filter (fun kv => ¬ kv.2 = TOMBSTONE)).foldl
            (fun m kv => m.put kv.1 kv.2 []) MemTable.empty).entries))))
      ((DATA_DIR ++ SSTABLE_PREFIX ++ natDigits s.clock) ++ DATA_EXTENSION) =
    some (encodeData (merged.filter (fun kv => ¬ kv.2 = TOMBSTONE)))
  rw [hentries, fsRead_removeFold batch _ hfresh]
  exact fsRead_write_self _ _ _

/-- Witness for C4 at a concrete one-table compaction. -/
theorem claim_C4_compaction_merge_witness :
    fsRead (LSMTree.perform_compaction ⟨1, 1⟩
        (buildLSM ⟨1, 1⟩ [LSMOp.putOp [107] [97] [], LSMOp.flushOp])).fs
        ((DATA_DIR ++ SSTABLE_PREFIX ++
          natDigits (buildLSM ⟨1, 1⟩
            [LSMOp.putOp [107] [97] [], LSMOp.flushOp]).clock) ++ DATA_EXTENSION) =
      some (encodeData [([107], [97])]) := by
  have h := (claim_C4_compaction_merge ⟨1, 1⟩
    (buildLSM ⟨1, 1⟩ [LSMOp.putOp [107] [97] [], LSMOp.flushOp])
    (by decide) (by decide) (by decide)).2.2
  exact h.trans (by decide)
/-- A uint32_t serialises as four bytes. -/
theorem length_u32le (n : Nat) : (u32le n).length = 4 := rfl

/-- A uint64_t serialises as eight bytes. -/
theorem length_u64le (n : Nat) : (u64le n).length = 8 := rfl

/-- Reading back a little-endian uint32_t below the field bound. -/
theorem leVal_u32le {n : Nat} (h : n < 2 ^ 32) : leVal (u32le n) = n := by
  simp only [u32le, leVal]
  omega

/-- Reading back a little-endian uint64_t below the field bound. -/
theorem leVal_u64le {n : Nat} (h : n < 2 ^ 64) : leVal (u64le n) = n := by
  simp only [u64le, leVal]
  omega

/-- An exact-length read returns the leading block unpadded. -/
theorem takePad_exact {bs : Bytes} {n : Nat} (h : bs.length = n) (rest : Bytes) :
    takePad n (bs ++ rest) = bs := by
  subst h
  simp [takePad, List.take_left]

/-- Seeking past a leading block of known length. -/
theorem drop_exact {bs : Bytes} {n : Nat} (h : bs.length = n) (rest : Bytes) :
    (bs ++ rest).drop n = rest := by
  subst h
  exact List.drop_left bs rest

/-- The encoded record occupies exactly recordSize bytes. -/
theorem length_encodeRecord (kv : Bytes × Bytes) :
    (encodeRecord kv).length = recordSize kv := by
  simp [encodeRecord, recordSize, u32le]
  omega

/-- A data file starts with its first record. -/
theorem encodeData_cons (kv : Bytes × Bytes) (l : List (Bytes × Bytes)) :
    encodeData (kv :: l) = encodeRecord kv ++ encodeData l := by
  simp [encodeData]

/-- Seeking to the offset of record m lands on the encoding of the
record suffix from m. -/
theorem encodeData_drop : ∀ (entries : List (Bytes × Bytes)) (m : Nat),
    (encodeData entries).drop (offsetOf entries m) = encodeData (entries.drop m) := by
  intro entries
  induction entries with
  | nil => intro m; simp [encodeData, offsetOf]
  | cons kv rest ih =>
    intro m
    match m with
    | 0 => simp [offsetOf]
    | m + 1 =>
      have hoff : offsetOf (kv :: rest) (m + 1) = recordSize kv + offsetOf rest m := by
        simp [offsetOf, List.take_succ_cons]
      rw [hoff, encodeData_cons, ← length_encodeRecord kv, List.drop_append,
        List.drop_succ_cons]
      exact ih m

/-- The scan loop of getValue on a well-formed record stream: started at
the encoding of a sorted suffix that holds the target key at position j,
it returns the record's value (as a tombstone answer when the value is
the sentinel) after examining exactly j + 1 records. -/
theorem scanRecords_spec :
    ∀ (l : List (Bytes × Bytes)) (fuel j c : Nat)
      (hval : ∀ kv ∈ l, EntryValid kv)
      (hsorted : List.Sorted (· < ·) (l.map Prod.fst))
      (hj : j < l.length),
      (encodeData l).length ≤ fuel →
      scanRecords ((l.get ⟨j, hj⟩).1) fuel (encodeData l) c =
        ((if (l.get ⟨j, hj⟩).2 = TOMBSTONE then (false, (l.get ⟨j, hj⟩).2)
          else (true, (l.get ⟨j, hj⟩).2)), c + j + 1) := by
  intro l
  induction l with
  | nil =>
    intro fuel j c hval hsorted hj hfuel
    exact absurd hj (by simp)
  | cons kv rest ih =>
    intro fuel j c hval hsorted hj hfuel
    have hkv : EntryValid kv := hval kv (List.mem_cons_self kv rest)
    have hlen : (encodeData (kv :: rest)).length =
        recordSize kv + (encodeData rest).length := by
      rw [encodeData_cons, List.length_append, length_encodeRecord]
    have hrs : 8 ≤ recordSize kv := by
      simp only [recordSize]
      omega
    obtain ⟨f, rfl⟩ : ∃ f, fuel = f + 1 := ⟨fuel - 1, by omega⟩
    have hB : encodeData (kv :: rest) =
        u32le kv.1.length ++ (kv.1 ++ (u32le kv.2.length ++ (kv.2 ++ encodeData rest))) := by
      rw [encodeData_cons, encodeRecord]
      simp [List.append_assoc]
    have hks : leVal (takePad 4 (encodeData (kv :: rest))) = kv.1.length := by
      rw [hB, takePad_exact (length_u32le _)]
      exact leVal_u32le hkv.1
    have h2 : (encodeData (kv :: rest)).drop 4 =
        kv.1 ++ (u32le kv.2.length ++ (kv.2 ++ encodeData rest)) := by
      rw [hB]
      exact drop_exact (length_u32le _) _
    have hsk : takePad kv.1.length ((encodeData (kv :: rest)).drop 4) = kv.1 := by
      rw [h2]
      exact takePad_exact rfl _
    have h3 : (encodeData (kv :: rest)).drop (4 + kv.1.length) =
        u32le kv.2.length ++ (kv.2 ++ encodeData rest) := by
      rw [← List.drop_drop, h2]
      exact drop_exact rfl _
    have hvs : leVal (takePad 4 ((encodeData (kv :: rest)).drop (4 + kv.1.length))) =
        kv.2.length := by
      rw [h3, takePad_exact (length_u32le _)]
      exact leVal_u32le hkv.2.1
    have h4 : ((encodeData (kv :: rest)).drop (4 + kv.1.length)).drop 4 =
        kv.2 ++ encodeData rest := by
      rw [h3]
      exact drop_exact (length_u32le _) _
    have hv : takePad kv.2.length
        (((encodeData (kv :: rest)).drop (4 + kv.1.length)).drop 4) = kv.2 := by
      rw [h4]
      exact takePad_exact rfl _
    have h5 : ((encodeData (kv :: rest)).drop (4 + kv.1.length)).drop (4 + kv.2.length) =
        encodeData rest := by
      rw [← List.drop_drop, h4]
      exact drop_exact rfl _
    cases j with
    | zero =>
      have hget : (kv :: rest).get ⟨0, hj⟩ = kv := rfl
      have hc1 : (kv.1 < kv.1) = False := eq_false (lt_irrefl kv.1)
      have hc2 : (kv.1 = kv.1) = True := eq_true rfl
      rw [hget]
      simp only [scanRecords]
      rw [if_neg (by omega)]
      simp only [hks, hsk, hvs, hv, hc1, hc2, if_false, if_true]
      by_cases htv : kv.2 = TOMBSTONE
      · simp [htv]
      · simp [htv]
    | succ m =>
      have hm : m < rest.length := by
        simp only [List.length_cons] at hj
        omega
      have hget : (kv :: rest).get ⟨m + 1, hj⟩ = rest.get ⟨m, hm⟩ := rfl
      have hkmem : (rest.get ⟨m, hm⟩).1 ∈ rest.map Prod.fst :=
        List.mem_map_of_mem Prod.fst (rest.get_mem m hm)
      have hsorted' := hsorted
      simp only [List.map_cons] at hsorted'
      have hlt : kv.1 < (rest.get ⟨m, hm⟩).1 :=
        List.rel_of_sorted_cons hsorted' _ hkmem
      have hc1 : ((rest.get ⟨m, hm⟩).1 < kv.1) = False := eq_false (lt_asymm hlt)
      have hc2 : (kv.1 = (rest.get ⟨m, hm⟩).1) = False := eq_false (ne_of_lt hlt)
      rw [hget]
      simp only [scanRecords]
      rw [if_neg (by omega)]
      simp only [hks, hsk, hvs, h5, hc1, hc2, if_false]
      rw [ih f m (c + 1) (fun kv' h => hval kv' (List.mem_cons_of_mem _ h))
        (List.sorted_cons.mp hsorted').2 hm (by omega)]
      simp only [Prod.mk.injEq]
      exact ⟨trivial, by omega⟩

/-- Only the insertion counter's residue mod 10 matters to the index loop. -/
theorem sparseIndexAux_mod : ∀ (l : List (Bytes × Bytes)) (i off : Nat),
    sparseIndexAux l i off = sparseIndexAux l (i % 10) off := by
  intro l
  induction l with
  | nil => intro i off; rfl
  | cons kv rest ih =>
    intro i off
    simp only [sparseIndexAux, KEYS_PER_INDEX_ENTRY]
    have h1 : i % 10 % 10 = i % 10 := by omega
    have h2 : (i + 1) % 10 = (i % 10 + 1) % 10 := by omega
    simp only [h1, h2, ih (i + 1), ih (i % 10 + 1)]

/-- Advancing the index loop to the next multiple of ten skips the
records in between, accumulating their sizes into the running offset. -/
theorem sparseIndexAux_skip : ∀ (j : Nat) (l : List (Bytes × Bytes)) (i off : Nat),
    i % 10 ≠ 0 → j + i % 10 = 10 →
    sparseIndexAux l i off =
      sparseIndexAux (l.drop j) 0 (off + ((l.take j).map recordSize).sum) := by
  intro j
  induction j with
  | zero => intro l i off hne hj; omega
  | succ j' ih =>
    intro l i off hne hj
    cases l with
    | nil => simp [sparseIndexAux]
    | cons kv rest =>
      have hstep : sparseIndexAux (kv :: rest) i off =
          sparseIndexAux rest (i + 1) (off + recordSize kv) := by
        simp only [sparseIndexAux, KEYS_PER_INDEX_ENTRY]
        rw [if_neg hne]
      rw [hstep]
      by_cases hz : (i + 1) % 10 = 0
      · have hj0 : j' = 0 := by omega
        subst hj0
        rw [sparseIndexAux_mod rest (i + 1), hz]
        simp only [List.drop_succ_cons, List.drop_zero, List.take_succ_cons,
          List.take_zero, List.map_cons, List.map_nil, List.sum_cons,
          List.sum_nil, Nat.add_zero]
      · have h1 : (i + 1) % 10 = i % 10 + 1 := by omega
        rw [ih rest (i + 1) (off + recordSize kv) hz (by omega)]
        simp only [List.drop_succ_cons, List.take_succ_cons, List.map_cons,
          List.sum_cons]
        congr 1
        omega

/-- Unrolling the index loop by ten records at a selection point. -/
theorem sparseIndexAux_cons10 (kv : Bytes × Bytes) (rest : List (Bytes × Bytes)) (off : Nat) :
    sparseIndexAux (kv :: rest) 0 off =
      (kv.1, off) ::
        sparseIndexAux ((kv :: rest).drop 10) 0
          (off + (((kv :: rest).take 10).map recordSize).sum) := by
  have h0 : sparseIndexAux (kv :: rest) 0 off =
      (kv.1, off) :: sparseIndexAux rest 1 (off + recordSize kv) := by
    simp [sparseIndexAux, KEYS_PER_INDEX_ENTRY]
  rw [h0, sparseIndexAux_skip 9 rest 1 (off + recordSize kv) (by omega) (by omega)]
  simp only [List.drop_succ_cons, List.take_succ_cons, List.map_cons, List.sum_cons]
  congr 2
  omega

/-- The index loop on a list of R records emits ceil(R/10) entries. -/
theorem sparseIndexAux_length : ∀ (n : Nat) (l : List (Bytes × Bytes)) (off : Nat),
    l.length ≤ n → (sparseIndexAux l 0 off).length = (l.length + 9) / 10 := by
  intro n
  induction n with
  | zero =>
    intro l off hl
    have hnil : l = [] := List.length_eq_zero.mp (by omega)
    subst hnil
    rfl
  | succ n ih =>
    intro l off hl
    cases l with
    | nil => rfl
    | cons kv rest =>
      rw [sparseIndexAux_cons10, List.length_cons,
        ih _ _ (by simp only [List.length_drop, List.length_cons] at hl ⊢; omega)]
      simp only [List.length_drop, List.length_cons]
      simp only [List.length_cons] at hl
      omega

/-- Entry m of the index loop's output is the key of record 10·m paired
with its running byte offset. -/
theorem sparseIndexAux_get : ∀ (n : Nat) (l : List (Bytes × Bytes)) (off m : Nat),
    l.length ≤ n → 10 * m < l.length →
    (sparseIndexAux l 0 off).get? m =
      (l.get? (10 * m)).map (fun kv => (kv.1, off + offsetOf l (10 * m))) := by
  intro n
  induction n with
  | zero => intro l off m hl hm; omega
  | succ n ih =>
    intro l off m hl hm
    cases l with
    | nil => simp at hm
    | cons kv rest =>
      rw [sparseIndexAux_cons10]
      cases m with
      | zero => simp [offsetOf]
      | succ m' =>
        have h10 : 10 * (m' + 1) = 10 + 10 * m' := by omega
        have hlen10 : ((kv :: rest).drop 10).length = (kv :: rest).length - 10 :=
          List.length_drop 10 (kv :: rest)
        rw [List.get?_cons_succ]
        rw [ih ((kv :: rest).drop 10) _ m'
          (by simp only [List.length_drop, List.length_cons] at hl ⊢; omega)
          (by simp only [List.length_drop, List.length_cons] at hm ⊢; omega)]
        rw [List.get?_drop, ← h10]
        have hoff2 : offsetOf (kv :: rest) (10 * (m' + 1)) =
            (((kv :: rest).take 10).map recordSize).sum +
              offsetOf ((kv :: rest).drop 10) (10 * m') := by
          simp only [offsetOf, h10, List.take_add, List.map_append, List.sum_append]
        obtain ⟨kv', hkv'⟩ : ∃ kv', (kv :: rest).get? (10 * (m' + 1)) = some kv' :=
          ⟨_, List.get?_eq_get hm⟩
        rw [hkv', Option.map_some', Option.map_some', Option.some.injEq,
          Prod.mk.injEq]
        exact ⟨rfl, by omega⟩

/-- The sparse index of a record list has exactly ceil(R/10) entries. -/
theorem sparseIndexEntries_length (entries : List (Bytes × Bytes)) :
    (sparseIndexEntries entries).length = (entries.length + 9) / 10 :=
  sparseIndexAux_length entries.length entries 0 le_rfl

/-- Entry m of the sparse index is the key of record 10·m with its data
file offset; past ceil(R/10) both sides are empty. -/
theorem sparseIndexEntries_get? (entries : List (Bytes × Bytes)) (m : Nat) :
    (sparseIndexEntries entries).get? m =
      (entries.get? (10 * m)).map (fun kv => (kv.1, offsetOf entries (10 * m))) := by
  by_cases hm : 10 * m < entries.length
  · have h := sparseIndexAux_get entries.length entries 0 m le_rfl hm
    simpa [sparseIndexEntries] using h
  · have h1 : (sparseIndexEntries entries).length ≤ m := by
      rw [sparseIndexEntries_length]
      omega
    rw [List.get?_eq_none.mpr h1, List.get?_eq_none.mpr (by omega)]
    rfl

/-- Every index entry carries some stored key, and an offset bounded by
the total encoded size. -/
theorem sparseIndexAux_mem : ∀ (l : List (Bytes × Bytes)) (i off : Nat) (e : Bytes × Nat),
    e ∈ sparseIndexAux l i off →
    (∃ kv ∈ l, e.1 = kv.1) ∧ e.2 ≤ off + ((l.map recordSize).sum) := by
  intro l
  induction l with
  | nil =>
    intro i off e he
    simp [sparseIndexAux] at he
  | cons kv rest ih =>
    intro i off e he
    simp only [sparseIndexAux] at he
    by_cases hz : i % KEYS_PER_INDEX_ENTRY = 0
    · rw [if_pos hz] at he
      rcases List.mem_cons.mp he with h | h
      · subst h
        refine ⟨⟨kv, List.mem_cons_self kv rest, rfl⟩, ?_⟩
        simp only [List.map_cons, List.sum_cons]
        omega
      · obtain ⟨⟨kv', hkv', he1⟩, he2⟩ := ih (i + 1) (off + recordSize kv) e h
        refine ⟨⟨kv', List.mem_cons_of_mem _ hkv', he1⟩, ?_⟩
        simp only [List.map_cons, List.sum_cons]
        omega
    · rw [if_neg hz] at he
      obtain ⟨⟨kv', hkv', he1⟩, he2⟩ := ih (i + 1) (off + recordSize kv) e he
      refine ⟨⟨kv', List.mem_cons_of_mem _ hkv', he1⟩, ?_⟩
      simp only [List.map_cons, List.sum_cons]
      omega

/-- The entry-reading loop of loadIndex inverts the entry encoding. -/
theorem parseIndexEntries_encode : ∀ (es : List (Bytes × Nat)),
    (∀ e ∈ es, e.1.length < 2 ^ 32 ∧ e.2 < 2 ^ 64) →
    parseIndexEntries es.length ((es.map encodeIndexEntry).flatten) = es := by
  intro es
  induction es with
  | nil => intro h; rfl
  | cons e rest ih =>
    intro h
    have he := h e (List.mem_cons_self e rest)
    have hB : ((e :: rest).map encodeIndexEntry).flatten =
        u32le e.1.length ++ (e.1 ++ (u64le e.2 ++ (rest.map encodeIndexEntry).flatten)) := by
      simp [encodeIndexEntry, List.append_assoc]
    have h1 : leVal (takePad 4 (((e :: rest).map encodeIndexEntry).flatten)) = e.1.length := by
      rw [hB, takePad_exact (length_u32le _)]
      exact leVal_u32le he.1
    have h2 : (((e :: rest).map encodeIndexEntry).flatten).drop 4 =
        e.1 ++ (u64le e.2 ++ (rest.map encodeIndexEntry).flatten) := by
      rw [hB]
      exact drop_exact (length_u32le _) _
    have h3 : takePad e.1.length ((((e :: rest).map encodeIndexEntry).flatten).drop 4) =
        e.1 := by
      rw [h2]
      exact takePad_exact rfl _
    have h4 : ((((e :: rest).map encodeIndexEntry).flatten).drop 4).drop e.1.length =
        u64le e.2 ++ (rest.map encodeIndexEntry).flatten := by
      rw [h2]
      exact drop_exact rfl _
    have h5 : leVal (takePad 8
        (((((e :: rest).map encodeIndexEntry).flatten).drop 4).drop e.1.length)) = e.2 := by
      rw [h4, takePad_exact (length_u64le _)]
      exact leVal_u64le he.2
    have h6 : (((((e :: rest).map encodeIndexEntry).flatten).drop 4).drop e.1.length).drop 8 =
        (rest.map encodeIndexEntry).flatten := by
      rw [h4]
      exact drop_exact (length_u64le _) _
    rw [List.length_cons]
    simp only [parseIndexEntries, h1, h3, h5, h6]
    rw [ih (fun e' h' => h e' (List.mem_cons_of_mem _ h')), Prod.mk.eta]

/-- loadIndex's parse inverts createFromMemTable's index encoding. -/
theorem parseIndex_encodeIndex (entries : List (Bytes × Bytes))
    (hval : ValidEntries entries) :
    parseIndex (encodeIndex entries) = sparseIndexEntries entries := by
  obtain ⟨hv, hsrt, hcount, hsum⟩ := hval
  have hC : (entries.length + KEYS_PER_INDEX_ENTRY - 1) / KEYS_PER_INDEX_ENTRY < 2 ^ 64 := by
    simp only [KEYS_PER_INDEX_ENTRY]
    omega
  have h1 : leVal (takePad 8 (encodeIndex entries)) =
      (entries.length + KEYS_PER_INDEX_ENTRY - 1) / KEYS_PER_INDEX_ENTRY := by
    rw [encodeIndex, takePad_exact (length_u64le _)]
    exact leVal_u64le hC
  have h2 : (encodeIndex entries).drop 8 =
      ((sparseIndexEntries entries).map encodeIndexEntry).flatten := by
    rw [encodeIndex]
    exact drop_exact (length_u64le _) _
  have h3 : (entries.length + KEYS_PER_INDEX_ENTRY - 1) / KEYS_PER_INDEX_ENTRY =
      (sparseIndexEntries entries).length := by
    rw [sparseIndexEntries_length]
    simp only [KEYS_PER_INDEX_ENTRY]
    omega
  rw [parseIndex, h1, h2, h3]
  apply parseIndexEntries_encode
  intro e he
  obtain ⟨⟨kv, hkv, he1⟩, he2⟩ := sparseIndexAux_mem entries 0 0 e he
  constructor
  · rw [he1]
    exact (hv kv hkv).1
  · have hb : ((entries.map recordSize).sum) < 2 ^ 64 := hsum
    omega

/-- Position i of the index keys, read through get. -/
theorem idxKey_get {index : List (Bytes × Nat)} {i : Nat} (h : i < index.length) :
    idxKey index i = (index.get ⟨i, h⟩).1 := by
  simp [idxKey, List.getElem?_eq_getElem h]

/-- On an index with strictly ascending keys, idxKey is monotone. -/
theorem idxKey_mono {index : List (Bytes × Nat)}
    (hs : List.Sorted (· < ·) (index.map Prod.fst)) {a b : Nat}
    (hab : a ≤ b) (hb : b < index.length) : idxKey index a ≤ idxKey index b := by
  rcases Nat.lt_or_ge a b with hlt | hge
  · have ha : a < index.length := lt_trans hlt hb
    rw [idxKey_get ha, idxKey_get hb]
    have h := List.pairwise_iff_get.mp hs ⟨a, by simpa using ha⟩ ⟨b, by simpa using hb⟩ hlt
    simp only [List.get_map] at h
    exact le_of_lt h
  · have hab' : a = b := by omega
    subst hab'
    exact le_rfl

/-- The binary-search loop returns, within the searched range, the
greatest index position whose key is at most the target. -/
theorem bsearchLoop_spec {index : List (Bytes × Nat)} {k : Bytes}
    (hs : List.Sorted (· < ·) (index.map Prod.fst)) :
    ∀ (fuel left right : Nat), right - left ≤ fuel → left ≤ right →
      right < index.length → idxKey index left ≤ k →
      (∀ m, right < m → m < index.length → k < idxKey index m) →
      left ≤ bsearchLoop index k fuel left right ∧
        bsearchLoop index k fuel left right ≤ right ∧
        idxKey index (bsearchLoop index k fuel left right) ≤ k ∧
        (∀ m, bsearchLoop index k fuel left right < m → m < index.length →
          k < idxKey index m) := by
  intro fuel
  induction fuel with
  | zero =>
    intro left right hf hlr hr hleft htail
    have hEq : left = right := by omega
    subst hEq
    exact ⟨le_rfl, le_rfl, hleft, htail⟩
  | succ f ih =>
    intro left right hf hlr hr hleft htail
    by_cases hlt : left < right
    · have hstep : bsearchLoop index k (f + 1) left right =
          if idxKey index (left + (right - left + 1) / 2) ≤ k then
            bsearchLoop index k f (left + (right - left + 1) / 2) right
          else bsearchLoop index k f left ((left + (right - left + 1) / 2) - 1) := by
        simp only [bsearchLoop]
        rw [if_pos hlt]
      set mid := left + (right - left + 1) / 2 with hmid
      have hm1 : left < mid := by omega
      have hm2 : mid ≤ right := by omega
      by_cases hk : idxKey index mid ≤ k
      · rw [hstep, if_pos hk]
        obtain ⟨i1, i2, i3, i4⟩ := ih mid right (by omega) hm2 hr hk htail
        exact ⟨by omega, i2, i3, i4⟩
      · rw [hstep, if_neg hk]
        have hklt : k < idxKey index mid := lt_of_not_le hk
        have htail2 : ∀ m, mid - 1 < m → m < index.length → k < idxKey index m := by
          intro m hm hmlen
          rcases Nat.lt_or_ge right m with h | h
          · exact htail m h hmlen
          · have hmm : idxKey index mid ≤ idxKey index m := idxKey_mono hs (by omega) hmlen
            exact lt_of_lt_of_le hklt hmm
        obtain ⟨i1, i2, i3, i4⟩ :=
          ih left (mid - 1) (by omega) (by omega) (by omega) hleft htail2
        exact ⟨i1, by omega, i3, i4⟩
    · have hstep : bsearchLoop index k (f + 1) left right = left := by
        simp only [bsearchLoop]
        rw [if_neg hlt]
      rw [hstep]
      have hEq : left = right := by omega
      subst hEq
      exact ⟨le_rfl, le_rfl, hleft, htail⟩

/-- findStartOffset on the sparse index of a sorted valid record list
locates record 10·⌊j/10⌋ when queried with the key stored at position j. -/
theorem findStartOffset_at {entries : List (Bytes × Bytes)} (hval : ValidEntries entries)
    {t : SS_Table} (ht : t.index = sparseIndexEntries entries)
    {j : Nat} (hj : j < entries.length) :
    t.findStartOffset ((entries.get ⟨j, hj⟩).1) =
      some (offsetOf entries (10 * (j / 10))) := by
  obtain ⟨hv, hsrt, hcount, hsum⟩ := hval
  have hR : 0 < entries.length := by omega
  have hlen : t.index.length = (entries.length + 9) / 10 := by
    rw [ht, sparseIndexEntries_length]
  have hlenpos : 0 < t.index.length := by omega
  have hkey : ∀ (p : Nat) (hp : 10 * p < entries.length),
      idxKey t.index p = (entries.get ⟨10 * p, hp⟩).1 := by
    intro p hp
    unfold idxKey
    rw [ht, sparseIndexEntries_get?, List.get?_eq_get hp]
    rfl
  have hoff : ∀ (p : Nat) (hp : 10 * p < entries.length),
      idxOff t.index p = offsetOf entries (10 * p) := by
    intro p hp
    unfold idxOff
    rw [ht, sparseIndexEntries_get?, List.get?_eq_get hp]
    rfl
  have hstrict : ∀ (a b : Nat) (ha : a < entries.length) (hb : b < entries.length),
      a < b → (entries.get ⟨a, ha⟩).1 < (entries.get ⟨b, hb⟩).1 := by
    intro a b ha hb hab
    have h := List.pairwise_iff_get.mp hsrt ⟨a, by simpa using ha⟩ ⟨b, by simpa using hb⟩ hab
    simpa using h
  have hmono : ∀ (a b : Nat) (ha : a < entries.length) (hb : b < entries.length),
      a ≤ b → (entries.get ⟨a, ha⟩).1 ≤ (entries.get ⟨b, hb⟩).1 := by
    intro a b ha hb hab
    rcases Nat.eq_or_lt_of_le hab with h | h
    · subst h
      exact le_rfl
    · exact le_of_lt (hstrict a b ha hb h)
  have hsidx : List.Sorted (· < ·) (t.index.map Prod.fst) := by
    apply List.pairwise_iff_get.mpr
    intro a b hab
    have ha : (a : Nat) < t.index.length := by simpa using a.2
    have hb : (b : Nat) < t.index.length := by simpa using b.2
    have h10a : 10 * (a : Nat) < entries.length := by
      rw [hlen] at ha
      omega
    have h10b : 10 * (b : Nat) < entries.length := by
      rw [hlen] at hb
      omega
    have e1 : (t.index.map Prod.fst).get a = idxKey t.index a := by
      rw [idxKey_get ha]
      simp [List.get_map]
    have e2 : (t.index.map Prod.fst).get b = idxKey t.index b := by
      rw [idxKey_get hb]
      simp [List.get_map]
    have hab2 : (a : Nat) < (b : Nat) := hab
    rw [e1, e2, hkey _ h10a, hkey _ h10b]
    exact hstrict _ _ h10a h10b (by omega)
  have hle0 : idxKey t.index 0 ≤ (entries.get ⟨j, hj⟩).1 := by
    rw [hkey 0 (by omega)]
    exact hmono (10 * 0) j (by omega) hj (by omega)
  rw [SS_Table.findStartOffset, if_neg (List.ne_nil_of_length_pos hlenpos),
    if_neg (not_lt.mpr hle0)]
  obtain ⟨b1, b2, b3, b4⟩ := bsearchLoop_spec hsidx t.index.length 0 (t.index.length - 1)
    (by omega) (by omega) (by omega) hle0
    (fun m hm1 hm2 => absurd hm2 (by omega))
  set p := bsearchLoop t.index ((entries.get ⟨j, hj⟩).1) t.index.length 0
    (t.index.length - 1) with hp
  have hplen : p < t.index.length := by omega
  have h10p : 10 * p < entries.length := by
    rw [hlen] at hplen
    omega
  have h10pj : 10 * p ≤ j := by
    by_contra hcon
    push_neg at hcon
    have hlt2 : (entries.get ⟨j, hj⟩).1 < (entries.get ⟨10 * p, h10p⟩).1 :=
      hstrict j (10 * p) hj h10p hcon
    rw [← hkey p h10p] at hlt2
    exact absurd b3 (not_le.mpr hlt2)
  have hpj : p = j / 10 := by
    by_contra hne
    have hplt : p < j / 10 := by omega
    have hp1 : p + 1 < t.index.length := by
      rw [hlen]
      omega
    have hk1 : (entries.get ⟨j, hj⟩).1 < idxKey t.index (p + 1) := b4 (p + 1) (by omega) hp1
    have h10p1 : 10 * (p + 1) < entries.length := by
      rw [hlen] at hp1
      omega
    rw [hkey (p + 1) h10p1] at hk1
    have hle1 : (entries.get ⟨10 * (p + 1), h10p1⟩).1 ≤ (entries.get ⟨j, hj⟩).1 :=
      hmono _ _ h10p1 hj (by omega)
    exact absurd hk1 (not_lt.mpr hle1)
  rw [hpj, hoff (j / 10) (by omega)]

/-- Writing one file leaves reads of any other name unchanged. -/
theorem fsRead_write_other {fs : FS} {name m : Bytes} (contents : Bytes)
    (hne : m ≠ name) :
    fsRead (fsWrite fs name contents) m = fsRead fs m := by
  have h1 : fsWrite fs name contents = (name, contents) :: fsRemove fs name := rfl
  have h2 : fsRead ((name, contents) :: fsRemove fs name) m =
      fsRead (fsRemove fs name) m := by
    unfold fsRead
    simp only [List.find?_cons]
    rw [show (decide ((name, contents).1 = m)) = false from
      decide_eq_false (fun h => hne h.symm)]
  rw [h1, h2]
  exact fsRead_remove_other hne

/-- getValue reduced to its scan, under a loaded index, a located start
offset and a readable data file. -/
theorem getValue_eq {t : SS_Table} {fs : FS} {key : Bytes} {off : Nat} {bytes : Bytes}
    (hload : t.indexLoaded = true)
    (hfind : t.findStartOffset key = some off)
    (hread : fsRead fs t.data_filename = some bytes) :
    t.getValue fs key = (scanRecords key (bytes.drop off).length (bytes.drop off) 0).1 := by
  unfold SS_Table.getValue
  rw [hload, hfind, hread]
  rfl

/-- C5: an SSTable created from a memtable with R records carries an
index of exactly ceil(R/10) entries, entry m naming the key of record
10·m together with that record's data-file byte offset; for the key
stored at any position j, findStartOffset returns the offset of record
10·⌊j/10⌋, and getValue's forward scan from that offset reaches the key
within at most 10 examined records, returning its value — as a Deleted
answer when the value equals the tombstone sentinel. -/
theorem claim_C5_sparse_index (fs : FS) (stem : Bytes) (mt : MemTable) (t : SS_Table)
    (entries : List (Bytes × Bytes)) (fs2 : FS)
    (hentries : entries = MemTable.entries mt)
    (hfs2 : fs2 = (SS_Table.createFromMemTable fs stem mt).1)
    (ht : t = SS_Table.loadIndex fs2 (stem ++ INDEX_EXTENSION) (stem ++ DATA_EXTENSION))
    (hval : ValidEntries entries) (j : Nat) (hj : j < entries.length) :
    t.index.length = (entries.length + 9) / 10 ∧
      (∀ m : Nat, t.index.get? m =
        (entries.get? (10 * m)).map (fun kv => (kv.1, offsetOf entries (10 * m)))) ∧
      t.findStartOffset ((entries.get ⟨j, hj⟩).1) =
        some (offsetOf entries (10 * (j / 10))) ∧
      SS_Table.getValue t fs2 ((entries.get ⟨j, hj⟩).1) =
        (if (entries.get ⟨j, hj⟩).2 = TOMBSTONE then (false, (entries.get ⟨j, hj⟩).2)
         else (true, (entries.get ⟨j, hj⟩).2)) ∧
      (scanRecords ((entries.get ⟨j, hj⟩).1)
          (encodeData (entries.drop (10 * (j / 10)))).length
          (encodeData (entries.drop (10 * (j / 10)))) 0).2 ≤ 10 := by
  have hnames : stem ++ DATA_EXTENSION ≠ stem ++ INDEX_EXTENSION := by
    intro h
    have hlen := congrArg List.length h
    simp [DATA_EXTENSION, INDEX_EXTENSION] at hlen
  have hfs2' : fs2 = fsWrite (fsWrite fs (stem ++ INDEX_EXTENSION) (encodeIndex entries))
      (stem ++ DATA_EXTENSION) (encodeData entries) := by
    rw [hfs2, hentries]
    rfl
  have hreadIdx : fsRead fs2 (stem ++ INDEX_EXTENSION) = some (encodeIndex entries) := by
    rw [hfs2', fsRead_write_other _ (Ne.symm hnames)]
    exact fsRead_write_self _ _ _
  have hreadData : fsRead fs2 (stem ++ DATA_EXTENSION) = some (encodeData entries) := by
    rw [hfs2']
    exact fsRead_write_self _ _ _
  have ht' : t = ⟨stem ++ INDEX_EXTENSION, stem ++ DATA_EXTENSION,
      parseIndex (encodeIndex entries), true⟩ := by
    rw [ht]
    unfold SS_Table.loadIndex
    rw [hreadIdx]
  have hidx0 : t.index = parseIndex (encodeIndex entries) := by
    rw [ht']
  have htidx : t.index = sparseIndexEntries entries :=
    hidx0.trans (parseIndex_encodeIndex entries hval)
  have hload : t.indexLoaded = true := by rw [ht']
  have hdataname : t.data_filename = stem ++ DATA_EXTENSION := by rw [ht']
  have hreadData2 : fsRead fs2 t.data_filename = some (encodeData entries) := by
    rw [hdataname]
    exact hreadData
  have hfind := findStartOffset_at hval htidx hj
  have hjq : j % 10 < (entries.drop (10 * (j / 10))).length := by
    rw [List.length_drop]
    omega
  have hgetq : (entries.drop (10 * (j / 10))).get ⟨j % 10, hjq⟩ = entries.get ⟨j, hj⟩ := by
    have hq : 10 * (j / 10) + j % 10 = j := by omega
    simp only [List.get_eq_getElem, List.getElem_drop, hq]
  have hscan := scanRecords_spec (entries.drop (10 * (j / 10)))
    ((encodeData (entries.drop (10 * (j / 10)))).length) (j % 10) 0
    (fun kv h => hval.1 kv (List.mem_of_mem_drop h))
    (by
      rw [List.map_drop]
      exact List.Pairwise.sublist (List.drop_sublist _ _) hval.2.1)
    hjq le_rfl
  rw [hgetq] at hscan
  refine ⟨?_, ?_, hfind, ?_, ?_⟩
  · rw [htidx, sparseIndexEntries_length]
  · intro m
    rw [htidx]
    exact sparseIndexEntries_get? entries m
  · rw [getValue_eq hload hfind hreadData2, encodeData_drop, hscan]
  · rw [hscan]
    show 0 + j % 10 + 1 ≤ 10
    omega

/-- Witness for C5 at a twelve-record memtable: the index gets two
entries and a lookup of the last key scans two records from the second
index offset, returning its value. -/
theorem claim_C5_sparse_index_witness :
    SS_Table.getValue
        (SS_Table.loadIndex
          (SS_Table.createFromMemTable [] [115]
            ⟨⟨[], [([1], [101]), ([2], [102]), ([3], [103]), ([4], [104]), ([5], [105]), ([6], [106]), ([7], [107]), ([8], [108]), ([9], [109]), ([10], [110]), ([11], [111]), ([12], [112])], [], 0⟩⟩).1
          ([115] ++ INDEX_EXTENSION) ([115] ++ DATA_EXTENSION))
        (SS_Table.createFromMemTable [] [115]
          ⟨⟨[], [([1], [101]), ([2], [102]), ([3], [103]), ([4], [104]), ([5], [105]), ([6], [106]), ([7], [107]), ([8], [108]), ([9], [109]), ([10], [110]), ([11], [111]), ([12], [112])], [], 0⟩⟩).1
        ((([([1], [101]), ([2], [102]), ([3], [103]), ([4], [104]), ([5], [105]), ([6], [106]), ([7], [107]), ([8], [108]), ([9], [109]), ([10], [110]), ([11], [111]), ([12], [112])] : List (Bytes × Bytes)).get ⟨11, by decide⟩).1) =
      (true, [112]) := by
  have h := (claim_C5_sparse_index [] [115]
      ⟨⟨[], [([1], [101]), ([2], [102]), ([3], [103]), ([4], [104]), ([5], [105]), ([6], [106]), ([7], [107]), ([8], [108]), ([9], [109]), ([10], [110]), ([11], [111]), ([12], [112])], [], 0⟩⟩ _
      [([1], [101]), ([2], [102]), ([3], [103]), ([4], [104]), ([5], [105]), ([6], [106]), ([7], [107]), ([8], [108]), ([9], [109]), ([10], [110]), ([11], [111]), ([12], [112])] _ rfl rfl rfl
      (by unfold ValidEntries EntryValid ByteValid; decide) 11 (by decide)).2.2.2.1
  exact h.trans (by decide)
